import Mathlib

/-!
Verification development for the YTwatch repository
(src/nixe/cogs/a21_youtube_wuwa_live_announce.py).

The Python source is shallowly embedded below: strings are `List Char`,
pure helper functions become Lean functions, the stateful poll loop and the
outbound send queue become explicit state-passing step functions, and every
network access or platform callback becomes an explicit oracle argument.
Unix times are modelled as `Int` seconds.
-/

set_option maxRecDepth 4000

namespace YTWatch

/-- Strings of the embedded program are lists of characters. -/
abbrev Str := List Char

/-! ## Generic character/string helpers shared by several embedded functions -/

/-- ASCII whitespace, as matched by Python `str.strip()` / `\s` for the
character sets manipulated by this program. -/
def isWs (c : Char) : Bool :=
  c = ' ' || c = '\t' || c = '\n' || c = '\r' || c = '\x0b' || c = '\x0c'

/-- Python `str.strip()`. -/
def pyStrip (s : Str) : Str :=
  ((s.dropWhile isWs).reverse.dropWhile isWs).reverse

/-- Python `str.lower()` restricted to ASCII letters (the only characters the
source lowercases that are affected in its data). -/
def lowerChar (c : Char) : Char :=
  if 65 ≤ c.toNat ∧ c.toNat ≤ 90 then Char.ofNat (c.toNat + 32) else c

def lowerStr (s : Str) : Str := s.map lowerChar

/-- Modelled subset of `unicodedata.normalize("NFKC", ·)`: folds the
fullwidth ASCII block (U+FF01..U+FF5E, which contains the fullwidth at-sign
and hash that the source cares about) to ASCII and the ideographic space to
a plain space; identity on all other characters handled by this program. -/
def nfkcChar (c : Char) : Char :=
  if 65281 ≤ c.toNat ∧ c.toNat ≤ 65374 then Char.ofNat (c.toNat - 65248)
  else if c.toNat = 12288 then ' '
  else c

def nfkcStr (s : Str) : Str := s.map nfkcChar

/-- Membership test used to render Python `tok in t` (substring test). -/
def isSubstr (needle hay : Str) : Bool :=
  match hay with
  | [] => needle.isEmpty
  | _ :: rest => needle.isPrefixOf hay || isSubstr needle rest

/-- Percent-decoding as done by `urllib.parse.unquote`: a `%` followed by two
hex digits becomes the denoted code point (multi-byte UTF-8 sequences are
abstracted to single code points); an invalid escape is kept literally. -/
def hexVal (c : Char) : Option Nat :=
  if 48 ≤ c.toNat ∧ c.toNat ≤ 57 then some (c.toNat - 48)
  else if 65 ≤ c.toNat ∧ c.toNat ≤ 70 then some (c.toNat - 55)
  else if 97 ≤ c.toNat ∧ c.toNat ≤ 102 then some (c.toNat - 87)
  else none

def pctDecode : Str → Str
  | [] => []
  | '%' :: h1 :: h2 :: rest =>
    match hexVal h1, hexVal h2 with
    | some a, some b => Char.ofNat (16 * a + b) :: pctDecode rest
    | _, _ => '%' :: pctDecode (h1 :: h2 :: rest)
  | c :: rest => c :: pctDecode rest

/-! ## `_canonicalize_youtube_channel_url` (source lines 1009-1057)

The Python function normalizes the scheme, parses the URL with
`urllib.parse.urlparse`, lowercases and canonicalizes the netloc, unquotes
and NFKC-normalizes the path, strips trailing slashes and one known suffix
page, keeps only the primary identifier segment, and reassembles
`https://netloc + path`.  `urlparse` is embedded by its observable action on
scheme-qualified URLs: netloc runs to the first of `/?#`, the path to the
first of `?#`, and `;params` of the last path segment are split off. -/

def notNetStop (c : Char) : Bool := ¬(c = '/' ∨ c = '?' ∨ c = '#')

def notPathStop (c : Char) : Bool := ¬(c = '?' ∨ c = '#')

/-- The `;parameters` split of `urllib.parse.urlparse`: drop everything from
the first `;` of the last `/`-segment (or of the whole string if it has no
slash).  `urlunparse` is called with empty params, so they are dropped. -/
def stripParams (p : Str) : Str :=
  if ('/') ∈ p then
    let rev := p.reverse
    let afterRev := rev.takeWhile (fun c => c ≠ '/')
    let beforeRev := rev.drop afterRev.length
    beforeRev.reverse ++ afterRev.reverse.takeWhile (fun c => c ≠ ';')
  else p.takeWhile (fun c => c ≠ ';')

/-- The characters of `https://`. -/
def HTTPS : Str := ['h', 't', 't', 'p', 's', ':', '/', '/']

/-- The characters of `http://`. -/
def HTTP : Str := ['h', 't', 't', 'p', ':', '/', '/']

/-- Scheme recognizer for `re.match(r"^https?://", u, re.IGNORECASE)`:
returns the length of the matched scheme prefix, 0 when there is no match. -/
def schemeLen (u : Str) : Nat :=
  if lowerStr (u.take 8) = HTTPS then 8
  else if lowerStr (u.take 7) = HTTP then 7
  else 0

/-- Netloc canonicalization: lowercased netlocs naming youtube hosts are
normalized to `www.youtube.com` (source lines 1026-1028). -/
def ytNetloc (n : Str) : Str :=
  if n = ("youtube.com").data ∨ n = ("www.youtube.com").data ∨ n = ("m.youtube.com").data
  then ("www.youtube.com").data else n

/-- `re.sub(r"/+$", "", path)`. -/
def stripTrailSlash (p : Str) : Str :=
  (p.reverse.dropWhile (fun c => c = '/')).reverse

/-- The known suffix pages of source line 1036, in source order. -/
def knownSuffixes : List Str :=
  [("/videos").data, ("/featured").data, ("/streams").data, ("/live").data,
   ("/community").data, ("/about").data, ("/playlists").data, ("/shorts").data]

def endsWithL (suf s : Str) : Bool := suf.reverse.isPrefixOf s.reverse

/-- First known suffix (in tuple order) that `path.lower()` ends with. -/
def findKnownSuffix (p : Str) : Option Str :=
  knownSuffixes.find? (fun suf => endsWithL suf (lowerStr p))

/-- One iteration of the suffix-stripping loop (it `break`s after the first
matching suffix): drop the suffix, then re-strip trailing slashes. -/
def stripKnownSuffix (p : Str) : Str :=
  match findKnownSuffix p with
  | some suf => stripTrailSlash (p.take (p.length - suf.length))
  | none => p

/-- `re.match(r"^/(@[^/]+)(?:/.*)?$", path)` replacing `path` by `/` + group 1.
After `takeWhile (· ≠ '/')` the remainder is empty or starts with `/`, which
is exactly what `(?:/.*)?$` requires, so only non-emptiness is tested. -/
def rxAt (p : Str) : Str :=
  match p with
  | a :: b :: rest =>
    if a = '/' ∧ b = '@' then
      if rest.takeWhile (fun c => c ≠ '/') = [] then p
      else '/' :: '@' :: rest.takeWhile (fun c => c ≠ '/')
    else p
  | _ => p

def isIdChar (c : Char) : Bool :=
  (48 ≤ c.toNat ∧ c.toNat ≤ 57) ∨ (65 ≤ c.toNat ∧ c.toNat ≤ 90) ∨
  (97 ≤ c.toNat ∧ c.toNat ≤ 122) ∨ c = '_' ∨ c = '-'

/-- The characters of `/channel/`. -/
def CHAN9 : Str := ['/', 'c', 'h', 'a', 'n', 'n', 'e', 'l', '/']

/-- `re.match(r"^/channel/(UC[0-9A-Za-z_\-]+)(?:/.*)?$", path, re.IGNORECASE)`
replacing `path` by `/channel/` + group 1 (group 1 keeps its original case;
the literal prefix is rewritten lowercase, as in the source). -/
def rxChannel (p : Str) : Str :=
  if lowerStr (p.take 9) = CHAN9 then
    match p.drop 9 with
    | u :: c :: rest2 =>
      if (u = 'U' ∨ u = 'u') ∧ (c = 'C' ∨ c = 'c') then
        if rest2.takeWhile isIdChar ≠ [] ∧
            (rest2.drop (rest2.takeWhile isIdChar).length = [] ∨
              (rest2.drop (rest2.takeWhile isIdChar).length).head? = some '/') then
          CHAN9 ++ u :: c :: rest2.takeWhile isIdChar
        else p
      else p
    | _ => p
  else p

/-- `re.match(r"^/(c|user)/([^/]+)(?:/.*)?$", path, re.IGNORECASE)` replacing
`path` by `/` + group 1 + `/` + group 2 (both groups keep original case). -/
def rxCUser (p : Str) : Str :=
  match p with
  | a :: rest =>
    if a = '/' then
      if lowerStr (rest.takeWhile (fun c => c ≠ '/')) = ['c'] ∨
          lowerStr (rest.takeWhile (fun c => c ≠ '/')) = ['u', 's', 'e', 'r'] then
        match rest.drop (rest.takeWhile (fun c => c ≠ '/')).length with
        | b :: rest2 =>
          if b = '/' then
            if rest2.takeWhile (fun c => c ≠ '/') = [] then p
            else '/' :: (rest.takeWhile (fun c => c ≠ '/') ++
              '/' :: rest2.takeWhile (fun c => c ≠ '/'))
          else p
        | _ => p
      else p
    else p
  | _ => p

/-- The three identifier-segment rewrites, applied in source order. -/
def rxPipeline (p : Str) : Str := rxCUser (rxChannel (rxAt p))

/-- The path half of the canonicalization pipeline (source lines 1030-1053). -/
def canonPath (p : Str) : Str :=
  rxPipeline (stripKnownSuffix (stripTrailSlash (nfkcStr (pctDecode (stripParams p)))))

/-- Scheme normalization (source lines 1018-1022): protocol-relative URLs get
`https:` prepended; URLs with no recognized scheme get `https://` prepended
after their leading slashes are removed. -/
def normScheme (u0 : Str) : Str :=
  if (['/', '/'] : Str).isPrefixOf u0 then ['h', 't', 't', 'p', 's', ':'] ++ u0
  else if schemeLen u0 ≠ 0 then u0
  else HTTPS ++ u0.dropWhile (fun c => c = '/')

/-- Netloc as `urlparse` extracts it from a scheme-qualified URL. -/
def netlocPart (v : Str) : Str := (v.drop (schemeLen v)).takeWhile notNetStop

/-- Path as `urlparse` extracts it from a scheme-qualified URL (query and
fragment are cut; the params split `stripParams` is applied later, as the
first step of `canonPath`). -/
def pathPart (v : Str) : Str :=
  ((v.drop (schemeLen v)).dropWhile notNetStop).takeWhile notPathStop

/-- `_canonicalize_youtube_channel_url` (source lines 1009-1057).  The final
`urlunparse(("https", netloc, path, "", "", ""))` is rendered as direct
concatenation; the reachable paths here are empty or start with a slash, so
the two agree.  The `except` fallback of the source is unreachable in this
total model. -/
def canonicalize_youtube_channel_url (url : Str) : Str :=
  if pyStrip url = [] then []
  else
    HTTPS ++ ytNetloc (lowerStr (netlocPart (normScheme (pyStrip url)))) ++
      canonPath (pathPart (normScheme (pyStrip url)))

/-- A string with no trailing slash (vacuously true for the empty string). -/
def NoTrailSlash (l : Str) : Prop := l.getLast? ≠ some '/'

/-- Every character is a fixed point of the NFKC folding. -/
def NfkcFixed (l : Str) : Prop := ∀ c ∈ l, nfkcChar c = c

/-- The string is empty or starts with a slash (shape of every parsed path). -/
def HeadSlashOrNil (l : Str) : Prop := l = [] ∨ l.head? = some '/'

/-- Shape of a path rewritten by the `@handle` identifier regex. -/
def AtShape (q : Str) : Prop :=
  ∃ seg, seg ≠ [] ∧ (∀ c ∈ seg, c ≠ '/') ∧ q = '/' :: '@' :: seg

/-- Shape of a path rewritten by the `/channel/UC...` identifier regex. -/
def ChanShape (q : Str) : Prop :=
  ∃ u c idp, (u = 'U' ∨ u = 'u') ∧ (c = 'C' ∨ c = 'c') ∧ idp ≠ [] ∧
    (∀ x ∈ idp, isIdChar x) ∧ q = CHAN9 ++ u :: c :: idp

/-- Shape of a path rewritten by the `/(c|user)/name` identifier regex;
the first segment is spelt out (one letter folding to `c`, or four letters
folding to `user`). -/
def CUShape (q : Str) : Prop :=
  ∃ s1 s2, ((∃ x, s1 = [x] ∧ lowerChar x = 'c') ∨
      (∃ x1 x2 x3 x4, s1 = [x1, x2, x3, x4] ∧ lowerChar x1 = 'u' ∧
        lowerChar x2 = 's' ∧ lowerChar x3 = 'e' ∧ lowerChar x4 = 'r')) ∧
    (∀ c ∈ s1, c ≠ '/') ∧ s2 ≠ [] ∧ (∀ c ∈ s2, c ≠ '/') ∧
    q = '/' :: (s1 ++ '/' :: s2)


/-! ## Search resolve scoring (source lines 516-536)

`_score_channel_hit` lowercases the query and title, splits the query on
whitespace runs (`re.split(r"\\s+", q)`, which yields leading/trailing empty
tokens), adds 2 per non-empty token contained in the title, and adds 5 when
the whole query is contained in the title.  `_pick_best_channel` keeps the
first candidate of maximal score, starting from best score -1. -/

def splitWsGo : Str → Str → Bool → List Str
  | [], cur, _ => [cur.reverse]
  | c :: rest, cur, inWs =>
    if isWs c then
      if inWs then splitWsGo rest cur true
      else cur.reverse :: splitWsGo rest [] true
    else splitWsGo rest (c :: cur) false

/-- `re.split(r"\\s+", s)`. -/
def splitWs (s : Str) : List Str := splitWsGo s [] false

def score_channel_hit (query title : Str) : Int :=
  let q := lowerStr query
  let t := lowerStr title
  let base := (splitWs q).foldl
    (fun acc tok => if pyStrip tok ≠ [] ∧ isSubstr (pyStrip tok) t = true then acc + 2 else acc)
    (0 : Int)
  if q ≠ [] ∧ isSubstr q t = true then base + 5 else base

def pickStep (query : Str) (acc : Option (Str × Str) × Int) (cand : Str × Str) :
    Option (Str × Str) × Int :=
  if score_channel_hit query cand.2 > acc.2 then (some cand, score_channel_hit query cand.2)
  else acc

def pick_best_channel (query : Str) (candidates : List (Str × Str)) : Option (Str × Str) :=
  (candidates.foldl (pickStep query) ((none : Option (Str × Str)), (-1 : Int))).1

/-- The token-match count named by the specification: whitespace-delimited
tokens of the lowercased query that occur in the lowercased title. -/
def tokenMatchCount (query title : Str) : Nat :=
  ((splitWs (lowerStr query)).filter
    (fun tok => pyStrip tok ≠ [] ∧ isSubstr (pyStrip tok) (lowerStr title) = true)).length


/-! ## `_yt_live_info` (source lines 450-512)

The parsed `ytInitialPlayerResponse` structure is embedded with `Option`
fields for JSON-key presence.  ISO timestamps are embedded already parsed to
UTC seconds (`_parse_ts` returns `None` on a missing or malformed string,
which is folded into `none` here).  The truthiness of a JSON string value
(`bool(s)`, `s or None`) is the non-emptiness test. -/

structure VideoDetails where
  videoId : Option Str := none
  title : Option Str := none
  author : Option Str := none

structure LiveBroadcastDetails where
  isLiveNow : Option Bool := none
  startTimestamp : Option Int := none
  endTimestamp : Option Int := none

structure PlayerMicroformatRenderer where
  ownerChannelName : Option Str := none
  liveBroadcastDetails : Option LiveBroadcastDetails := none

structure StreamingData where
  hlsManifestUrl : Option Str := none

structure Player where
  videoDetails : Option VideoDetails := none
  microformat : Option PlayerMicroformatRenderer := none
  streamingData : Option StreamingData := none

/-- Python `s or None` for an optional string value. -/
def pyOrNone : Option Str → Option Str
  | some t => if t = [] then none else some t
  | none => none

/-- Python `bool(d.get(k))` for an optional string value. -/
def truthyStrOpt : Option Str → Bool
  | some s => s ≠ []
  | none => false

/-- The timestamp-inference fallback of `_yt_live_info` (source lines
501-505): live iff `start_ts and start_ts <= now and (not end_ts or
end_ts > now)`. -/
def lbdTsLive (now : Int) (l : LiveBroadcastDetails) : Bool :=
  match l.startTimestamp with
  | some st => decide (st ≤ now) &&
      (match l.endTimestamp with
       | some et => decide (now < et)
       | none => true)
  | none => false

/-- `liveBroadcastDetails` as `_yt_live_info` reads it:
`(player.get("microformat") or {}).get("playerMicroformatRenderer") or {}`
then `.get("liveBroadcastDetails") or {}` (the two outer levels are
collapsed into one optional microformat record). -/
def playerLbd (player : Player) : Option LiveBroadcastDetails :=
  (player.microformat.getD {}).liveBroadcastDetails

/-- The last-resort live signal (source lines 507-510):
`bool(isinstance(sd, dict) and sd.get("hlsManifestUrl"))`. -/
def hlsSignal (player : Player) : Bool :=
  match player.streamingData with
  | some sd => truthyStrOpt sd.hlsManifestUrl
  | none => false

structure LiveInfo where
  vid : Option Str
  title : Option Str
  isLiveNow : Bool
  startTs : Option Int
  channelName : Option Str

/-- `_yt_live_info` (source lines 450-512). -/
def yt_live_info (now : Int) (player : Player) : LiveInfo :=
  let vd := player.videoDetails.getD {}
  let live := playerLbd player
  let channelName0 :=
    match pyOrNone (player.microformat.getD {}).ownerChannelName with
    | some nm => some nm
    | none => pyOrNone vd.author
  let channelName :=
    match channelName0 with
    | some nm => if pyStrip nm = [] then none else some (pyStrip nm)
    | none => none
  let startTs := match live with
    | some l => l.startTimestamp
    | none => none
  let liveNow0 :=
    match live with
    | some l =>
      match l.isLiveNow with
      | some b => b
      | none => lbdTsLive now l
    | none => false
  let isLiveNow := if liveNow0 then liveNow0 else hlsSignal player
  ⟨vd.videoId, vd.title, isLiveNow, startTs, channelName⟩

/-- C5 counterexample input: a player response whose
`liveBroadcastDetails.isLiveNow` is explicitly `false` but which carries an
`hlsManifestUrl`. -/
def c5Player : Player :=
  { microformat := some { liveBroadcastDetails := some { isLiveNow := some false } },
    streamingData := some { hlsManifestUrl := some (("h").data) } }


/-! ## The poll loop's announce/suppress decision (source lines 2856-3039)

The loop body is embedded as a step function over an explicit state: the
`announced` alias map, the `announced_vids` map and the module-level
`_INFLIGHT_VIDS` set.  Python dict assignment becomes `updAssoc`
(replace-or-append), dict lookup becomes `lookupAssoc`.  Network and
platform effects are oracles in the parameter record: `historyHas` is
`_announce_channel_has_video`, `postRaises` tells whether `_post` raises.
The step reports which exit the body took, the video id for which `_post`
was invoked (if any), and whether `_write_json_best_effort(STATE_PATH, ...)`
ran. -/

def pyOr (a b : Str) : Str := if a = [] then b else a

def updAssoc {β : Type} : List (Str × β) → Str → β → List (Str × β)
  | [], k, v => [(k, v)]
  | (k0, v0) :: rest, k, v =>
    if k0 = k then (k0, v) :: rest else (k0, v0) :: updAssoc rest k v

def lookupAssoc {β : Type} : List (Str × β) → Str → Option β
  | [], _ => none
  | (k0, v0) :: rest, k => if k0 = k then some v0 else lookupAssoc rest k

/-- The `Target` dataclass (source lines 552-575). -/
structure Target where
  name : Str
  query : Str
  handle : Str := []
  channel_id : Str := []
  url : Str := []

def Target.key (t : Target) : Str :=
  pyOr t.channel_id (pyOr t.url (pyOr t.handle t.query))

/-- `Target.base_url` (source lines 563-575). -/
def Target.base_url (t : Target) : Option Str :=
  if t.url ≠ [] then some (stripTrailSlash t.url)
  else if t.handle ≠ [] then
    let h := pyStrip t.handle
    if h = [] then none
    else if (['@'] : Str).isPrefixOf h then some (("https://www.youtube.com/").data ++ h)
    else some (("https://www.youtube.com/@").data ++ h)
  else if t.channel_id ≠ [] then
    some (("https://www.youtube.com/channel/").data ++ t.channel_id)
  else none

/-- One successful detection result `(t, vid, title, start_ts, creator_name)`
as returned by `_check_live` and consumed by the loop. -/
structure DetResult where
  t : Target
  vid : Str
  title : Str
  startTs : Option Int
  creatorName : Str

/-- The persisted announce state plus the module-level in-flight guard. -/
structure LoopState where
  announced : List (Str × Str)
  announcedVids : List (Str × Int)
  inflight : List Str

/-- Configuration and oracles of one pass over one detection result. -/
structure LoopParams where
  onlyNewAfterBoot : Bool
  bootGraceSeconds : Int
  announceMaxAgeMinutes : Int
  bootTime : Int
  now : Int
  historyHas : Str → Bool
  postRaises : Bool

inductive LoopBranch where
  | dedupGate | bootOld | stale | crossInstance | noName | inflightSkip
  | posted | postFailed
deriving DecidableEq

/-- The stable alias keys of a target (source lines 2938-2943). -/
def detKeys (t : Target) : List Str :=
  let keys := ([t.channel_id, (Target.base_url t).getD [], t.url, t.handle,
    t.query, t.name]).filter (fun k => k ≠ [])
  if keys = [] then [t.query] else keys

/-- `for k in keys: ann_map[k] = vid`. -/
def writeAliasKeys (keys : List Str) (vid : Str) (m : List (Str × Str)) :
    List (Str × Str) :=
  keys.foldl (fun acc k => updAssoc acc k vid) m

structure StepResult where
  state : LoopState
  branch : LoopBranch
  postedVid : Option Str
  flushed : Bool

/-- A suppression exit that realigns all alias keys, stamps
`announced_vids[vid] = now` and flushes the state file. -/
def recordAndFlush (p : LoopParams) (s : LoopState) (keys : List Str) (vid : Str)
    (branch : LoopBranch) : StepResult :=
  { state := { s with
      announced := writeAliasKeys keys vid s.announced,
      announcedVids := updAssoc s.announcedVids vid p.now },
    branch := branch, postedVid := none, flushed := true }

/-- One iteration of the result loop (source lines 2932-3039). -/
def loop_step (p : LoopParams) (s : LoopState) (r : DetResult) : StepResult :=
  let keys := detKeys r.t
  -- hard de-dupe by video id (line 2949): only the alias keys are realigned,
  -- nothing is flushed
  if lookupAssoc s.announcedVids r.vid ≠ none ∨ r.vid ∈ s.inflight ∨
      r.vid ∈ s.announced.map (fun kv => kv.2) then
    { state := { s with announced := writeAliasKeys keys r.vid s.announced },
      branch := .dedupGate, postedVid := none, flushed := false }
  else
    -- ONLY_NEW_AFTER_BOOT (lines 2958-2972); a missing start_ts is replaced
    -- by now before both age checks
    let st1 : Option Int :=
      if p.onlyNewAfterBoot then some (r.startTs.getD p.now) else r.startTs
    if p.onlyNewAfterBoot ∧
        (r.startTs.getD p.now) < p.bootTime - max 0 p.bootGraceSeconds then
      recordAndFlush p s keys r.vid .bootOld
    -- stale-live suppression (lines 2974-2983)
    else if p.announceMaxAgeMinutes > 0 ∧ st1 ≠ none ∧
        p.now - st1.getD 0 > p.announceMaxAgeMinutes * 60 then
      recordAndFlush p s keys r.vid .stale
    -- cross-instance de-dupe (lines 2985-2997)
    else if p.historyHas r.vid then
      recordAndFlush p s keys r.vid .crossInstance
    -- empty creator name (lines 2999-3002): log and continue, no writes
    else if r.creatorName = [] then
      { state := s, branch := .noName, postedVid := none, flushed := false }
    -- in-flight re-check under the announce lock (lines 3004-3011)
    else if r.vid ∈ s.inflight then
      { state := s, branch := .inflightSkip, postedVid := none, flushed := false }
    -- _post raised: the finally block releases the in-flight guard and the
    -- except at line 3038 swallows the error before any state write
    else if p.postRaises then
      { state := s, branch := .postFailed, postedVid := some r.vid, flushed := false }
    -- successful announce (lines 3013-3027)
    else
      { state := { s with
          announced := writeAliasKeys keys r.vid s.announced,
          announcedVids := updAssoc s.announcedVids r.vid p.now },
        branch := .posted, postedVid := some r.vid, flushed := true }

/-- The whole result loop over a pass's detection results, collecting the
video ids for which `_post` was invoked. -/
def loop_run (p : LoopParams) : LoopState → List DetResult → LoopState × List Str
  | s, [] => (s, [])
  | s, r :: rest =>
    let out := loop_step p s r
    let rec_ := loop_run p out.state rest
    (rec_.1, (match out.postedVid with | some v => [v] | none => []) ++ rec_.2)


/-- Concrete target used by the loop witnesses. -/
def wTarget : Target :=
  { name := ("Alice").data, query := ("@alice").data, handle := ("@alice").data }

/-- Concrete loop parameters used by the loop witnesses. -/
def wParams : LoopParams :=
  { onlyNewAfterBoot := false, bootGraceSeconds := 30, announceMaxAgeMinutes := 10,
    bootTime := 0, now := 1000, historyHas := fun _ => false, postRaises := false }

/-- A state in which video `v1` was announced at time 5. -/
def wStateSeen : LoopState :=
  { announced := [], announcedVids := [((("v1").data : Str), 5)], inflight := [] }

/-- The empty announce state. -/
def wStateEmpty : LoopState := { announced := [], announcedVids := [], inflight := [] }

/-- A concrete detection result for the loop witnesses. -/
def wResult (vid : Str) (st : Option Int) (creator : Str) : DetResult :=
  { t := wTarget, vid := vid, title := ("Live now").data, startTs := st,
    creatorName := creator }


/-! ## Discord delivery pipeline (source lines 808-912) -/

/-- `_is_cloudflare_1015` (source lines 808-824): signature match on the
stringified exception. -/
def is_cloudflare_1015 (s : Str) : Bool :=
  let sl := lowerStr s
  if isSubstr (("cloudflare").data) sl then true
  else if isSubstr (("error 1015").data) sl then true
  else if isSubstr (("<!doctype html").data) sl && isSubstr (("rate limited").data) sl then
    true
  else if isSubstr (("access denied").data) sl && isSubstr (("discord.com").data) sl then
    true
  else false

inductive FutStatus where
  | pending | doneNone | doneSent | doneErr
deriving DecidableEq

/-- Send-pipeline state: the cooldown deadline (`0` models the falsy unset
value), the FIFO of queued item ids, the queue capacity, the status of each
created future, the throttle clock, and the log of ids actually handed to
`channel.send`. -/
structure SendState where
  cfCooldownUntil : Int
  queue : List Str
  queueMax : Nat
  futs : List (Str × FutStatus)
  lastSendTs : Int
  sentLog : List Str

/-- Outcome oracle for one `channel.send` attempt. -/
inductive SendOutcome where
  | ok
  | err (msg : Str)
deriving DecidableEq

/-- `_engage_cloudflare_cooldown` (source lines 826-844): pushes the
cooldown deadline to at least `now + max 60 cd` (never shrinking it) and
drains the queue with `get_nowait`; the drained items' futures are not
touched. -/
def engage_cloudflare_cooldown (cd now : Int) (s : SendState) : SendState :=
  { s with
    cfCooldownUntil := max s.cfCooldownUntil (now + max 60 cd),
    queue := [] }

/-- `_send_queued` (source lines 846-864): fast-fail inside the cooldown
window; drop when `put_nowait` raises `QueueFull` (the queue is built with
`maxsize = max(1, DISCORD_ANNOUNCE_QUEUE_MAXSIZE)`, line 613); otherwise
enqueue with a fresh pending future.  The Bool is true iff the item was
enqueued; `false` models returning `None` to the caller. -/
def send_queued (now : Int) (mid : Str) (s : SendState) : SendState × Bool :=
  if s.cfCooldownUntil ≠ 0 ∧ now < s.cfCooldownUntil then (s, false)
  else if s.queue.length ≥ s.queueMax then (s, false)
  else
    ({ s with
       queue := s.queue ++ [mid],
       futs := updAssoc s.futs mid FutStatus.pending }, true)

/-- One pass of the `_send_worker` loop body (source lines 866-912) on the
head of the queue: inside the cooldown window the future resolves to
`None`; a successful send stamps the throttle clock, logs the delivery and
resolves the future with the message; a failing send engages the
Cloudflare cooldown when the error matches the 1015 signature and resolves
the future with the exception. -/
def send_worker_step (cd now : Int) (o : SendOutcome) (s : SendState) : SendState :=
  match s.queue with
  | [] => s
  | mid :: rest =>
    let s1 : SendState := { s with queue := rest }
    if s1.cfCooldownUntil ≠ 0 ∧ now < s1.cfCooldownUntil then
      { s1 with futs := updAssoc s1.futs mid FutStatus.doneNone }
    else
      match o with
      | SendOutcome.ok =>
        { s1 with
          lastSendTs := now,
          sentLog := s1.sentLog ++ [mid],
          futs := updAssoc s1.futs mid FutStatus.doneSent }
      | SendOutcome.err m =>
        let s2 := if is_cloudflare_1015 m then engage_cloudflare_cooldown cd now s1 else s1
        { s2 with futs := updAssoc s2.futs mid FutStatus.doneErr }

/-- The pipeline activities that can happen after a dropped send. -/
inductive SendEvent where
  | enqueue (now : Int) (mid : Str)
  | work (now : Int) (o : SendOutcome)
  | engage (now : Int)
deriving DecidableEq

def eventEnqueues (e : SendEvent) (mid : Str) : Bool :=
  match e with
  | SendEvent.enqueue _ i => i = mid
  | _ => false

def send_event_apply (cd : Int) (s : SendState) : SendEvent → SendState
  | SendEvent.enqueue now mid => (send_queued now mid s).1
  | SendEvent.work now o => send_worker_step cd now o s
  | SendEvent.engage now => engage_cloudflare_cooldown cd now s

def send_run (cd : Int) : SendState → List SendEvent → SendState
  | s, [] => s
  | s, e :: es => send_run cd (send_event_apply cd s e) es

/-- Two pending messages, no cooldown: input of the C9 counterexample. -/
def wSend0 : SendState :=
  { cfCooldownUntil := 0, queue := [(("m1").data : Str), (("m2").data : Str)],
    queueMax := 200,
    futs := [((("m1").data : Str), FutStatus.pending),
      ((("m2").data : Str), FutStatus.pending)],
    lastSendTs := 0, sentLog := [] }

/-- A Cloudflare-1015-shaped error string. -/
def wCfErr : Str := ("429 Too Many Requests: Cloudflare Error 1015").data

/-- A state inside the cooldown window with one queued message. -/
def wSendWin : SendState :=
  { cfCooldownUntil := 500, queue := [(("m").data : Str)], queueMax := 200,
    futs := [((("m").data : Str), FutStatus.pending)], lastSendTs := 0, sentLog := [] }

/-- A full queue of capacity 1: input of the C10 witness. -/
def wSendFull : SendState :=
  { cfCooldownUntil := 0, queue := [(("a").data : Str)], queueMax := 1,
    futs := [((("a").data : Str), FutStatus.pending)], lastSendTs := 0, sentLog := [] }


/-! ## The final gate of the detector (source lines 2496-2555) -/

/-- `_BRACKET_TRANS` (source line 275): the bracket characters folded to a
space by `_normalize_title`. -/
def bracketChars : Str :=
  ['【', '】', '[', ']', '(', ')', '（', '）', '「', '」', '『', '』',
   '〈', '〉', '《', '》', '〔', '〕', '〖', '〗']

def bracketTrans (c : Char) : Char := if c ∈ bracketChars then ' ' else c

/-- `_normalize_title` (source lines 276-281): NFKC fold, bracket translate,
then the fullwidth hashtag fold (a no-op after NFKC, kept for fidelity). -/
def normalize_title (s : Str) : Str :=
  ((nfkcStr s).map bracketTrans).map (fun c => if c = '＃' then '#' else c)

/-- The character class of `_UC_ID_LIKE_RE` (source line 294). -/
def ucIdChar (c : Char) : Bool :=
  ('0' ≤ c && c ≤ '9') || ('A' ≤ c && c ≤ 'Z') || ('a' ≤ c && c ≤ 'z') ||
    c = '_' || c = '-'

/-- `_UC_ID_LIKE_RE.match`: `^UC[0-9A-Za-z_-]{20,}$`. -/
def isUcIdLike (s : Str) : Bool :=
  match s with
  | 'U' :: 'C' :: rest => decide (rest.length ≥ 20) && rest.all ucIdChar
  | _ => false

/-- `s.startswith(("@", "＠"))`. -/
def startsAtSign (s : Str) : Bool :=
  match s with
  | c :: _ => c = '@' || c = '＠'
  | [] => false

/-- A name the detector refuses to announce under: an @handle token or a
raw UC channel id.  The empty string is NOT bad by this predicate. -/
def badName (s : Str) : Bool := startsAtSign s || isUcIdLike s

/-- Oracles for the caches and parsed blobs consulted by the tail of
`_check_live`: the configured whitelist regex `self.title_rx.search`, the
channel name from `_yt_live_info(player)` when a player blob exists, the
API snippet `channelTitle` when one exists, and the persisted
`yt_channel_name_cache`. -/
structure CheckLiveEnv where
  titleRx : Str → Bool
  playerChName : Option Str
  snippetChannelTitle : Option Str
  nameCache : Str → Option Str

/-- Final sanitize plus absolute-last-resort (source lines 2547-2554):
an @/UC-shaped name is blanked, and an empty name falls back to
`(t.name or t.query).strip()` only when that candidate is usable. -/
def sanitizeName (c2 cand : Str) : Str :=
  let c3 := if badName c2 then [] else c2
  if c3 = [] then
    if cand ≠ [] ∧ badName cand = false then cand else c3
  else c3

/-- Creator-name finalization of `_check_live` (source lines 2498-2554). -/
def finalCreatorName (env : CheckLiveEnv) (t : Target) : Str :=
  let creator0 := pyStrip t.name
  -- player-response then API-snippet fallback (2500-2521), attempted only
  -- when the current name is empty or @/UC-shaped
  let creator1 :=
    if creator0 = [] ∨ badName creator0 = true then
      let c1 :=
        match env.playerChName with
        | some ch =>
          let nm2 := pyStrip ch
          if nm2 ≠ [] ∧ badName nm2 = false then nm2 else creator0
        | none => creator0
      if c1 = [] ∨ badName c1 = true then
        match env.snippetChannelTitle with
        | some ct =>
          let nm3 := pyStrip ct
          if nm3 ≠ [] ∧ badName nm3 = false then nm3 else c1
        | none => c1
      else c1
    else creator0
  -- cached display name keyed by channel id (2524-2534); note that an
  -- EMPTY current name does not consult this cache
  let cid := pyStrip t.channel_id
  let creator2 :=
    if cid ≠ [] ∧ badName creator1 = true then
      match env.nameCache cid with
      | some nm =>
        let c := pyStrip nm
        if c ≠ [] ∧ badName c = false then c else creator1
      | none => creator1
    else creator1
  -- the cache-update block (2537-2545) does not affect the returned value
  sanitizeName creator2 (pyStrip (pyOr t.name t.query))

/-- The final gate of `_check_live` (source lines 2496-2555): the title
whitelist check (raw and normalized) followed by the creator-name
finalization; on success the detection tuple is returned even when the
final creator name came out empty. -/
def check_live_finalize (env : CheckLiveEnv) (t : Target) (vid title : Str)
    (startTs : Option Int) : Option (Target × Str × Str × Option Int × Str) :=
  if env.titleRx title || env.titleRx (normalize_title title) then
    some (t, vid, title, startTs, finalCreatorName env t)
  else none

def detOfResult (r : Target × Str × Str × Option Int × Str) : DetResult :=
  { t := r.1, vid := r.2.1, title := r.2.2.1, startTs := r.2.2.2.1,
    creatorName := r.2.2.2.2 }

/-- A target whose only known name is its @handle. -/
def wTargetAt : Target :=
  { name := ("@alice").data, query := ("@alice").data, handle := ("@alice").data }

/-- An environment in which no channel display name is resolvable. -/
def wEnvC4 : CheckLiveEnv :=
  { titleRx := fun s => isSubstr (("live").data) (lowerStr s),
    playerChName := none, snippetChannelTitle := none, nameCache := fun _ => none }


/-! ## Watchlist merge (source lines 1059-1082 and 1156-1398) -/

/-- A watchlist target dict restricted to the keys the merge reads. -/
structure TargetD where
  name : Str := []
  channel_name : Str := []
  query : Str := []
  handle : Str := []
  channel_id : Str := []
  url : Str := []
deriving DecidableEq

/-- `s.startswith("@")` (the plain at-sign only). -/
def startsAt (s : Str) : Bool :=
  match s with
  | '@' :: _ => true
  | _ => false

/-- `"@" + h[1:]` when the string starts with the fullwidth at-sign. -/
def fixFwAt (s : Str) : Str :=
  match s with
  | '＠' :: r => '@' :: r
  | _ => s

/-- `h[1:]` when the string starts with `@`. -/
def dropAt (s : Str) : Str :=
  match s with
  | '@' :: r => r
  | _ => s

/-- `qq.lower().startswith("http")`. -/
def lowerStartsHttp (s : Str) : Bool :=
  (("http").data).isPrefixOf (lowerStr s)

/-- `norm_handle` (source lines 1176-1182). -/
def norm_handle (h : Str) : Str :=
  pyStrip (lowerStr (nfkcStr (dropAt (fixFwAt (pyStrip h)))))

/-- `_target_dedupe_key` (source lines 1059-1082). -/
def target_dedupe_key (d : TargetD) : Str :=
  let cid := pyStrip d.channel_id
  if cid ≠ [] then ("cid:").data ++ cid
  else
    let h := norm_handle d.handle
    if h ≠ [] then ("h:").data ++ h
    else
      let u := lowerStr (canonicalize_youtube_channel_url d.url)
      if u ≠ [] then ("u:").data ++ u
      else
        let nm := pyStrip (pyOr d.name d.channel_name)
        ("n:").data ++ lowerStr (nfkcStr (dropAt nm))

/-- `for k in out: if k and k not in seen: ...` (source lines 1236-1242). -/
def uniqKeysGo : List Str → List Str → List Str
  | [], _ => []
  | k :: rest, seen =>
    if k ≠ [] ∧ k ∉ seen then k :: uniqKeysGo rest (k :: seen)
    else uniqKeysGo rest seen

def uniqKeys (l : List Str) : List Str := uniqKeysGo l []

/-- `aliases` (source lines 1184-1242): cid, normalized handle, lowered
canonical url, query-derived alias, weak name alias, with the dedupe key
inserted up front, then order-preserving dedupe. -/
def aliases (d : TargetD) : List Str :=
  let cid := pyStrip d.channel_id
  let out1 := if cid ≠ [] then [("cid:").data ++ cid] else []
  let h := norm_handle d.handle
  let out2 := out1 ++ (if h ≠ [] then [("h:").data ++ h] else [])
  let u0 := pyStrip d.url
  let u := if u0 ≠ [] then canonicalize_youtube_channel_url u0 else u0
  let out3 := out2 ++ (if u0 ≠ [] ∧ u ≠ [] then [("u:").data ++ lowerStr u] else [])
  let q := pyStrip d.query
  let qq := fixFwAt q
  let out4 := out3 ++
    (if q = [] then []
     else if startsAt qq then [("h:").data ++ norm_handle qq]
     else if isUcIdLike qq then [("cid:").data ++ qq]
     else if lowerStartsHttp qq then
       (let cu := canonicalize_youtube_channel_url qq
        if cu ≠ [] then [("u:").data ++ lowerStr cu] else [])
     else [])
  let nm0 := pyStrip (pyOr d.name d.channel_name)
  let nm1 := if startsAtSign nm0 then nm0.tail else nm0
  let nm := pyStrip (lowerStr (nfkcStr nm1))
  let out5 := out4 ++ (if nm0 ≠ [] ∧ nm ≠ [] then [("n:").data ++ nm] else [])
  uniqKeys (target_dedupe_key d :: out5)

/-- One entry of the persisted `resolved` cache. -/
structure ResolvedEntry where
  channel_id : Str := []
  title : Str := []
  name : Str := []
  url : Str := []

/-- `apply_resolved_cache` (source lines 1245-1281): fill channel id / url /
name from the resolve cache keyed by the query, then derive missing
handle / channel id / url from the query token itself. -/
def apply_resolved_cache (res : Str → Option ResolvedEntry) (d : TargetD) : TargetD :=
  let q := pyStrip d.query
  let d :=
    if q ≠ [] then
      match res q with
      | some rr =>
        let cid := pyStrip rr.channel_id
        let title := pyStrip (pyOr rr.title rr.name)
        let url := pyStrip rr.url
        let d := if cid ≠ [] ∧ pyStrip d.channel_id = [] then
            { d with channel_id := cid } else d
        let d := if url ≠ [] ∧ pyStrip d.url = [] then { d with url := url } else d
        let cur := pyStrip d.name
        if title ≠ [] ∧ (cur = [] ∨ startsAtSign cur = true ∨ isUcIdLike cur = true ∨
            lowerStartsHttp cur = true) then
          { d with name := title }
        else d
      | none => d
    else d
  let qq := fixFwAt (pyStrip d.query)
  let d := if startsAt qq = true ∧ pyStrip d.handle = [] then { d with handle := qq } else d
  let d := if isUcIdLike qq = true ∧ pyStrip d.channel_id = [] then
      { d with channel_id := qq } else d
  if lowerStartsHttp qq = true ∧ pyStrip d.url = [] then
    { d with url := canonicalize_youtube_channel_url qq }
  else d

/-- `canonicalize_inplace` (source lines 1283-1296). -/
def canonicalize_inplace (d : TargetD) : TargetD :=
  let d := if d.url ≠ [] then { d with url := canonicalize_youtube_channel_url d.url }
    else d
  let h := pyStrip d.handle
  let d := if (("@@").data).isPrefixOf h then
      { d with handle := '@' :: h.dropWhile (fun c => c = '@') } else d
  let h2 := pyStrip d.handle
  if h2.head? = some '＠' then { d with handle := '@' :: h2.tail } else d

/-- `is_better_name` (source lines 1298-1311). -/
def is_better_name (cur nm : Str) : Bool :=
  let c := pyStrip cur
  let n := pyStrip nm
  if n = [] then false
  else if c = [] then true
  else if startsAtSign c then true
  else if isUcIdLike c then true
  else if lowerStartsHttp c then true
  else false

/-- The mutable locals of `_merge_targets`: the merged list, the alias index
(mapping alias keys to positions in `merged`, standing in for Python's
by-reference dict sharing), and the added counter and items. -/
structure MergeState where
  merged : List TargetD
  index : List (Str × Nat)
  added : Nat
  addedItems : List TargetD

/-- `apply_resolved_cache` then `canonicalize_inplace`, as run by `add_one`
and `merge_into`. -/
def prep (res : Str → Option ResolvedEntry) (d : TargetD) : TargetD :=
  canonicalize_inplace (apply_resolved_cache res d)

/-- `bind_keys` (source lines 1319-1321). -/
def bind_keys (st : MergeState) (ks : List Str) (i : Nat) : MergeState :=
  { st with index := ks.foldl (fun m k => updAssoc m k i) st.index }

/-- `merge_into` (source lines 1323-1332): upgrade the name, fill missing
fields, re-canonicalize and rebind the keys of the base entry. -/
def merge_into (res : Str → Option ResolvedEntry) (st : MergeState) (i : Nat)
    (inc : TargetD) : MergeState :=
  match st.merged.get? i with
  | none => st
  | some base =>
    let base := if is_better_name base.name inc.name then { base with name := inc.name }
      else base
    let base := if pyStrip base.query = [] ∧ pyStrip inc.query ≠ [] then
        { base with query := inc.query } else base
    let base := if pyStrip base.handle = [] ∧ pyStrip inc.handle ≠ [] then
        { base with handle := inc.handle } else base
    let base := if pyStrip base.channel_id = [] ∧ pyStrip inc.channel_id ≠ [] then
        { base with channel_id := inc.channel_id } else base
    let base := if pyStrip base.url = [] ∧ pyStrip inc.url ≠ [] then
        { base with url := inc.url } else base
    let base := prep res base
    let st := { st with merged := st.merged.set i base }
    bind_keys st (aliases base) i

/-- The first alias that is already bound in the index (the
`for k in aliases(d): if k in index` scan of `add_one`). -/
def firstHit (idx : List (Str × Nat)) : List Str → Option Nat
  | [] => none
  | k :: ks =>
    match lookupAssoc idx k with
    | some i => some i
    | none => firstHit idx ks

/-- The body of `add_one` after its `apply_resolved_cache` /
`canonicalize_inplace` preamble (source lines 1336-1351). -/
def add_one_prepped (res : Str → Option ResolvedEntry) (st : MergeState) (d1 : TargetD)
    (isNew : Bool) : MergeState :=
  match firstHit st.index (aliases d1) with
  | some i => merge_into res st i d1
  | none =>
    let i := st.merged.length
    let st1 := bind_keys { st with merged := st.merged ++ [d1] } (aliases d1) i
    if isNew then
      { st1 with added := st1.added + 1, addedItems := st1.addedItems ++ [d1] }
    else st1

/-- `add_one` (source lines 1334-1351). -/
def add_one (res : Str → Option ResolvedEntry) (st : MergeState) (d : TargetD)
    (isNew : Bool) : MergeState :=
  add_one_prepped res st (prep res d) isNew

/-- Folding a step function over the target list (the shape shared by the
two `for` loops of `_merge_targets`). -/
def mergePassGo (step : MergeState → TargetD → MergeState) :
    MergeState → List TargetD → MergeState
  | st, [] => st
  | st, d :: ds => mergePassGo step (step st d) ds

/-- One `for ... : add_one(d, is_new)` pass of `_merge_targets`. -/
def mergePass (res : Str → Option ResolvedEntry) (isNew : Bool)
    (st : MergeState) (l : List TargetD) : MergeState :=
  mergePassGo (fun st d => add_one res st d isNew) st l

/-- `_merge_targets` (source lines 1156-1367) on lists of target dicts:
self-heal the existing list, then merge the new targets; returns
`(merged, added, added_items)`. -/
def merge_targets (res : Str → Option ResolvedEntry)
    (existing newTargets : List TargetD) : List TargetD × Nat × List TargetD :=
  let st0 : MergeState := { merged := [], index := [], added := 0, addedItems := [] }
  let st1 := mergePass res false st0 existing
  let st2 := mergePass res true st1 newTargets
  (st2.merged, st2.added, st2.addedItems)

/-- The per-item normalization of `_targets_semantic_repr` (source lines
1371-1390): keep the five keys, canonicalize the url, fix the handle. -/
def reprNormalize (x : TargetD) : TargetD :=
  let url := if x.url ≠ [] then canonicalize_youtube_channel_url x.url else x.url
  let h := pyStrip x.handle
  let h := fixFwAt h
  let h := if (("@@").data).isPrefixOf h then '@' :: h.dropWhile (fun c => c = '@') else h
  { name := x.name, channel_name := [], query := x.query, handle := h,
    channel_id := x.channel_id, url := url }

/-- Code-point comparison of strings, as used by Python tuple sort keys. -/
def strLe : Str → Str → Bool
  | [], _ => true
  | _ :: _, [] => false
  | a :: xs, b :: ys => if a = b then strLe xs ys else decide (a < b)

/-- The sort key comparison of `_targets_semantic_repr` (source line 1392):
`(dedupe_key, NFKC-casefolded name)` lexicographically. -/
def reprSortKeyLe (a b : TargetD) : Bool :=
  let ka := target_dedupe_key a
  let kb := target_dedupe_key b
  if ka = kb then strLe (lowerStr (nfkcStr a.name)) (lowerStr (nfkcStr b.name))
  else strLe ka kb

/-- Stable insertion placing `x` after every kept-smaller-or-equal element,
so that a left fold reproduces Python's stable sort. -/
def insertLe (le : TargetD → TargetD → Bool) (x : TargetD) : List TargetD → List TargetD
  | [] => [x]
  | y :: ys => if le y x then y :: insertLe le x ys else x :: y :: ys

def stableSort (le : TargetD → TargetD → Bool) (l : List TargetD) : List TargetD :=
  l.foldl (fun acc x => insertLe le x acc) []

/-- `_targets_semantic_repr` (source lines 1369-1398) up to JSON encoding:
the normalized items in the stable sort order.  Two target lists produce
the same `json.dumps(items, ensure_ascii=False, sort_keys=True)` string iff
they produce the same normalized sorted item list, so list equality models
string equality. -/
def targets_semantic_repr (ts : List TargetD) : List TargetD :=
  stableSort reprSortKeyLe (ts.map reprNormalize)

/-- The empty resolve cache. -/
def cexRes : Str → Option ResolvedEntry := fun _ => none

/-- The three-target watchlist refuting merge idempotence. -/
def cexL : List TargetD :=
  [{ name := ("x").data, query := ("wuwa").data },
   { name := ("@z").data, handle := ("@z").data },
   { name := ("x").data, handle := ("@z").data }]


/-- A target has a bound alias: some alias of its prepared form is already
a key of the state's index.  Once a target has been processed, this holds
and keeps holding, which is what makes re-merging it a no-add. -/
def Phit (res : Str → Option ResolvedEntry) (st : MergeState) (d : TargetD) : Prop :=
  firstHit st.index (aliases (prep res d)) ≠ none

/-! # Theorems -/

/-! ## Generic helper lemmas -/

theorem charOfNat_toNat (n : Nat) (h : Nat.isValidChar n) : (Char.ofNat n).toNat = n := by
  simp [Char.ofNat, h, Char.ofNatAux, Char.toNat, UInt32.toNat, BitVec.toNat_ofNatLt]

theorem lowerChar_idem (c : Char) : lowerChar (lowerChar c) = lowerChar c := by
  unfold lowerChar
  by_cases h1 : 65 ≤ c.toNat ∧ c.toNat ≤ 90
  · rw [if_pos h1]
    have hv : Nat.isValidChar (c.toNat + 32) := Or.inl (by omega)
    have ht := charOfNat_toNat _ hv
    rw [if_neg (by rw [ht]; omega)]
  · rw [if_neg h1, if_neg h1]

theorem lowerStr_idem (s : Str) : lowerStr (lowerStr s) = lowerStr s := by
  simp only [lowerStr, List.map_map]
  exact List.map_congr_left (fun c _ => lowerChar_idem c)

theorem nfkcChar_idem (c : Char) : nfkcChar (nfkcChar c) = nfkcChar c := by
  unfold nfkcChar
  by_cases h1 : 65281 ≤ c.toNat ∧ c.toNat ≤ 65374
  · rw [if_pos h1]
    have hv : Nat.isValidChar (c.toNat - 65248) := Or.inl (by omega)
    have ht := charOfNat_toNat _ hv
    rw [if_neg (by rw [ht]; omega), if_neg (by rw [ht]; omega)]
  · rw [if_neg h1]
    by_cases h2 : c.toNat = 12288
    · rw [if_pos h2]; decide
    · rw [if_neg h2, if_neg h1, if_neg h2]

theorem takeWhile_eq_of_all {p : Char → Bool} {l : Str} (h : ∀ c ∈ l, p c) :
    l.takeWhile p = l := by
  induction l with
  | nil => rfl
  | cons a rest ih =>
    simp only [List.takeWhile]
    rw [h a (List.mem_cons_self a rest)]
    simp only [List.cons.injEq, true_and]
    exact ih (fun c hc => h c (List.mem_cons_of_mem a hc))

theorem dropWhile_eq_self_of_head {p : Char → Bool} {l : Str}
    (h : ∀ c, l.head? = some c → p c = false) : l.dropWhile p = l := by
  cases l with
  | nil => rfl
  | cons a rest =>
    simp only [List.dropWhile]
    rw [h a rfl]

theorem head?_dropWhile_false {p : Char → Bool} {l : Str} {c : Char}
    (h : (l.dropWhile p).head? = some c) : p c = false := by
  induction l with
  | nil => simp [List.dropWhile] at h
  | cons a rest ih =>
    simp only [List.dropWhile] at h
    split at h
    · exact ih h
    · simp only [List.head?, Option.some.injEq] at h
      subst h
      assumption

theorem mem_of_mem_takeWhileL {p : Char → Bool} {l : Str} {c : Char}
    (h : c ∈ l.takeWhile p) : c ∈ l := by
  induction l with
  | nil => simp [List.takeWhile] at h
  | cons a rest ih =>
    simp only [List.takeWhile] at h
    split at h
    · rcases List.mem_cons.mp h with h1 | h1
      · exact h1 ▸ List.mem_cons_self a rest
      · exact List.mem_cons_of_mem a (ih h1)
    · simp at h

theorem takeWhile_append_all {p : Char → Bool} {l : Str} (r : Str) (h : ∀ c ∈ l, p c) :
    (l ++ r).takeWhile p = l ++ r.takeWhile p := by
  induction l with
  | nil => rfl
  | cons a rest ih =>
    simp only [List.cons_append, List.takeWhile]
    rw [h a (List.mem_cons_self a rest)]
    simp only [List.cons.injEq, true_and]
    exact ih (fun c hc => h c (List.mem_cons_of_mem a hc))

theorem dropWhile_append_all {p : Char → Bool} {l : Str} (r : Str) (h : ∀ c ∈ l, p c) :
    (l ++ r).dropWhile p = r.dropWhile p := by
  induction l with
  | nil => rfl
  | cons a rest ih =>
    simp only [List.cons_append, List.dropWhile]
    rw [h a (List.mem_cons_self a rest)]
    exact ih (fun c hc => h c (List.mem_cons_of_mem a hc))

theorem takeWhile_append_drop_length (p : Char → Bool) (l : Str) :
    l.takeWhile p ++ l.drop (l.takeWhile p).length = l := by
  induction l with
  | nil => rfl
  | cons a rest ih =>
    simp only [List.takeWhile]
    by_cases ha : p a
    · rw [ha]; simp [ih]
    · rw [Bool.of_not_eq_true ha]; simp

theorem take_append_self (l r : Str) : (l ++ r).take l.length = l := by
  induction l with
  | nil => rfl
  | cons a rest ih => simp [ih]

theorem drop_append_self (l r : Str) : (l ++ r).drop l.length = r := by
  induction l with
  | nil => rfl
  | cons a rest ih => simp [ih]

theorem map_eq_self_of_fixed {f : Char → Char} {l : Str} (h : ∀ c ∈ l, f c = c) :
    l.map f = l := by
  induction l with
  | nil => rfl
  | cons a rest ih =>
    simp only [List.map, List.cons.injEq]
    exact ⟨h a (List.mem_cons_self a rest), ih (fun c hc => h c (List.mem_cons_of_mem a hc))⟩

/-! ## Facts about the canonicalization pipeline pieces -/

theorem stripParams_eq_self {p : Str} (h : (';') ∉ p) : stripParams p = p := by
  by_cases hs : ('/') ∈ p
  · have hsub : ∀ c ∈ (p.reverse.takeWhile (fun c => c ≠ '/')).reverse,
        (decide (c ≠ ';')) = true := by
      intro c hc
      have hcp : c ∈ p := by
        have h1 := List.mem_reverse.mp hc
        have h2 := mem_of_mem_takeWhileL h1
        exact List.mem_reverse.mp h2
      simp only [ne_eq, decide_eq_true_eq]
      intro hcc; rw [hcc] at hcp; exact h hcp
    simp only [stripParams, if_pos hs]
    rw [takeWhile_eq_of_all hsub, ← List.reverse_append, takeWhile_append_drop_length,
      List.reverse_reverse]
  · simp only [stripParams, if_neg hs]
    apply takeWhile_eq_of_all
    intro c hc
    simp only [ne_eq, decide_eq_true_eq]
    intro hcc; rw [hcc] at hc; exact h hc

theorem pctDecode_eq_self {p : Str} (h : ('%') ∉ p) : pctDecode p = p := by
  induction p using pctDecode.induct <;> simp_all [pctDecode]

theorem nfkcFixed_nfkcStr (l : Str) : NfkcFixed (nfkcStr l) := by
  intro c hc
  obtain ⟨a, _, rfl⟩ := List.mem_map.mp hc
  exact nfkcChar_idem a

theorem nfkcStr_eq_self {l : Str} (h : NfkcFixed l) : nfkcStr l = l :=
  map_eq_self_of_fixed h

theorem nfkcFixed_sublist {l l' : Str} (h : NfkcFixed l) (hsub : ∀ c ∈ l', c ∈ l) :
    NfkcFixed l' := fun c hc => h c (hsub c hc)

theorem nfkcFixed_append {l r : Str} (hl : NfkcFixed l) (hr : NfkcFixed r) :
    NfkcFixed (l ++ r) := by
  intro c hc
  rcases List.mem_append.mp hc with h | h
  · exact hl c h
  · exact hr c h

theorem stripTrailSlash_noTrail (p : Str) : NoTrailSlash (stripTrailSlash p) := by
  unfold stripTrailSlash NoTrailSlash
  rw [List.getLast?_reverse]
  intro h
  have := head?_dropWhile_false h
  simp at this

theorem stripTrailSlash_eq_self {p : Str} (h : NoTrailSlash p) : stripTrailSlash p = p := by
  unfold stripTrailSlash
  rw [dropWhile_eq_self_of_head, List.reverse_reverse]
  intro c hc
  rw [List.head?_reverse] at hc
  simp only [decide_eq_false_iff_not]
  intro hcc
  rw [hcc] at hc
  exact h hc

/-! ## Prefix / suffix / head bookkeeping for the canonicalized URL -/

theorem head?_append_left {l r : Str} (h : l ≠ []) : (l ++ r).head? = l.head? := by
  cases l with
  | nil => exact absurd rfl h
  | cons a t => rfl

theorem prefix_head? {l₁ l₂ : Str} (h : l₁ <+: l₂) (hne : l₁ ≠ []) :
    l₁.head? = l₂.head? := by
  obtain ⟨r, rfl⟩ := h
  exact (head?_append_left hne).symm

theorem stripTrailSlash_isPrefixOf (p : Str) : stripTrailSlash p <+: p := by
  unfold stripTrailSlash
  have h := List.dropWhile_suffix (l := p.reverse) (fun c => c = '/')
  have h2 := List.reverse_prefix.mpr h
  rwa [List.reverse_reverse] at h2

theorem take_prefix_mem {c : Char} {l : Str} {n : Nat} (h : c ∈ l.take n) : c ∈ l := by
  rw [← List.take_append_drop n l]
  exact List.mem_append.mpr (Or.inl h)

theorem mem_of_mem_drop {c : Char} {l : Str} {n : Nat} (h : c ∈ l.drop n) : c ∈ l := by
  rw [← List.take_append_drop n l]
  exact List.mem_append.mpr (Or.inr h)

theorem headSlash_take (p : Str) (n : Nat) (h : HeadSlashOrNil p) :
    HeadSlashOrNil (p.take n) := by
  rcases h with h | h
  · left; rw [h]; simp
  · cases p with
    | nil => left; simp
    | cons a t =>
      cases n with
      | zero => left; rfl
      | succ m =>
        right
        simp only [List.head?, Option.some.injEq] at h
        simp [List.take, h]

theorem headSlash_of_prefix {l₁ l₂ : Str} (hpre : l₁ <+: l₂) (h : HeadSlashOrNil l₂) :
    HeadSlashOrNil l₁ := by
  by_cases hne : l₁ = []
  · left; exact hne
  · right
    rw [prefix_head? hpre hne]
    rcases h with h | h
    · subst h
      obtain ⟨r, hr⟩ := hpre
      simp at hr
      exact absurd hr.1 hne
    · exact h

theorem getLast?_some_mem {l : Str} (h : l ≠ []) : ∃ c, l.getLast? = some c ∧ c ∈ l := by
  induction l with
  | nil => exact absurd rfl h
  | cons a t ih =>
    cases t with
    | nil => exact ⟨a, rfl, List.mem_cons_self a []⟩
    | cons b t2 =>
      obtain ⟨c, hc, hm⟩ := ih (by simp)
      exact ⟨c, by rw [List.getLast?_cons_cons]; exact hc, List.mem_cons_of_mem a hm⟩

theorem getLast?_append_right {l r : Str} (h : r ≠ []) : (l ++ r).getLast? = r.getLast? := by
  rw [← List.head?_reverse, ← List.head?_reverse, List.reverse_append]
  exact head?_append_left (by simpa using h)

theorem mem_takeWhile_ne_slash {l : Str} {c : Char}
    (h : c ∈ l.takeWhile (fun c => c ≠ '/')) : c ≠ '/' := by
  have := List.mem_takeWhile_imp h
  simpa using this

/-! ## Output shapes of the identifier-segment rewrites -/

theorem rxAt_shape (p : Str) : rxAt p = p ∨ AtShape (rxAt p) := by
  match p with
  | [] => exact Or.inl rfl
  | [a] => exact Or.inl rfl
  | a :: b :: rest =>
    by_cases hab : a = '/' ∧ b = '@'
    · by_cases hseg : rest.takeWhile (fun c => c ≠ '/') = []
      · left; simp only [rxAt, if_pos hab, if_pos hseg]
      · right
        simp only [rxAt, if_pos hab, if_neg hseg]
        exact ⟨rest.takeWhile (fun c => c ≠ '/'), hseg,
          fun c hc => mem_takeWhile_ne_slash hc, rfl⟩
    · left; simp only [rxAt, if_neg hab]

theorem rxChannel_shape (p : Str) : rxChannel p = p ∨ ChanShape (rxChannel p) := by
  unfold rxChannel
  by_cases h9 : lowerStr (p.take 9) = CHAN9
  · rw [if_pos h9]
    match hd : p.drop 9 with
    | [] => exact Or.inl rfl
    | [u] => exact Or.inl rfl
    | u :: c :: rest2 =>
      dsimp only
      by_cases huc : (u = 'U' ∨ u = 'u') ∧ (c = 'C' ∨ c = 'c')
      · rw [if_pos huc]
        by_cases hcond : rest2.takeWhile isIdChar ≠ [] ∧
            (rest2.drop (rest2.takeWhile isIdChar).length = [] ∨
              (rest2.drop (rest2.takeWhile isIdChar).length).head? = some '/')
        · rw [if_pos hcond]
          right
          exact ⟨u, c, rest2.takeWhile isIdChar, huc.1, huc.2, hcond.1,
            fun x hx => List.mem_takeWhile_imp hx, rfl⟩
        · rw [if_neg hcond]; exact Or.inl rfl
      · rw [if_neg huc]; exact Or.inl rfl
  · rw [if_neg h9]; exact Or.inl rfl

theorem lowerStr_singleton_inv {s : Str} {y : Char} (h : lowerStr s = [y]) :
    ∃ x, s = [x] ∧ lowerChar x = y := by
  cases s with
  | nil => simp [lowerStr] at h
  | cons a t =>
    simp only [lowerStr, List.map_cons, List.cons.injEq, List.map_eq_nil_iff] at h
    exact ⟨a, by rw [h.2], h.1⟩

theorem lowerStr_quad_inv {s : Str} {y1 y2 y3 y4 : Char}
    (h : lowerStr s = [y1, y2, y3, y4]) :
    ∃ x1 x2 x3 x4, s = [x1, x2, x3, x4] ∧ lowerChar x1 = y1 ∧ lowerChar x2 = y2 ∧
      lowerChar x3 = y3 ∧ lowerChar x4 = y4 := by
  cases s with
  | nil => simp [lowerStr] at h
  | cons a1 t1 =>
    cases t1 with
    | nil => simp [lowerStr] at h
    | cons a2 t2 =>
      cases t2 with
      | nil => simp [lowerStr] at h
      | cons a3 t3 =>
        cases t3 with
        | nil => simp [lowerStr] at h
        | cons a4 t4 =>
          simp only [lowerStr, List.map_cons, List.cons.injEq, List.map_eq_nil_iff] at h
          exact ⟨a1, a2, a3, a4, by rw [h.2.2.2.2], h.1, h.2.1, h.2.2.1, h.2.2.2.1⟩

theorem rxCUser_shape (p : Str) : rxCUser p = p ∨ CUShape (rxCUser p) := by
  match p with
  | [] => exact Or.inl rfl
  | a :: rest =>
    by_cases ha : a = '/'
    · by_cases hcu : lowerStr (rest.takeWhile (fun c => c ≠ '/')) = ['c'] ∨
          lowerStr (rest.takeWhile (fun c => c ≠ '/')) = ['u', 's', 'e', 'r']
      · simp only [rxCUser, if_pos ha, if_pos hcu]
        match hd : rest.drop (rest.takeWhile (fun c => c ≠ '/')).length with
        | [] => exact Or.inl rfl
        | b :: rest2 =>
          dsimp only
          by_cases hb : b = '/'
          · rw [if_pos hb]
            by_cases hseg2 : rest2.takeWhile (fun c => c ≠ '/') = []
            · rw [if_pos hseg2]; exact Or.inl rfl
            · rw [if_neg hseg2]
              right
              refine ⟨rest.takeWhile (fun c => c ≠ '/'), rest2.takeWhile (fun c => c ≠ '/'),
                ?_, fun c hc => mem_takeWhile_ne_slash hc, hseg2,
                fun c hc => mem_takeWhile_ne_slash hc, rfl⟩
              rcases hcu with hcu | hcu
              · obtain ⟨x, hx, hlx⟩ := lowerStr_singleton_inv hcu
                exact Or.inl ⟨x, hx, hlx⟩
              · obtain ⟨x1, x2, x3, x4, hx, h1, h2, h3, h4⟩ := lowerStr_quad_inv hcu
                exact Or.inr ⟨x1, x2, x3, x4, hx, h1, h2, h3, h4⟩
          · rw [if_neg hb]; exact Or.inl rfl
      · simp only [rxCUser, if_pos ha, if_neg hcu]; exact Or.inl trivial
    · simp only [rxCUser, if_neg ha]; exact Or.inl trivial

/-! ## Each rewrite shape is a fixed point of all three rewrites -/

theorem rxAt_fixes_at {q : Str} (h : AtShape q) : rxAt q = q := by
  obtain ⟨seg, hne, hns, rfl⟩ := h
  have htw : seg.takeWhile (fun c => c ≠ '/') = seg :=
    takeWhile_eq_of_all (fun c hc => by simp [hns c hc])
  unfold rxAt
  dsimp only
  rw [if_pos ⟨rfl, rfl⟩, htw, if_neg hne]

theorem rxChannel_fixes_at {q : Str} (h : AtShape q) : rxChannel q = q := by
  obtain ⟨seg, hne, hns, rfl⟩ := h
  have h9 : ¬(lowerStr (('/' :: '@' :: seg).take 9) = CHAN9) := by
    intro heq
    rw [show ('/' :: '@' :: seg).take 9 = '/' :: '@' :: seg.take 7 from rfl] at heq
    simp only [lowerStr, List.map_cons] at heq
    rw [show lowerChar '/' = '/' from by decide,
      show lowerChar '@' = '@' from by decide] at heq
    simp [CHAN9] at heq
  unfold rxChannel
  rw [if_neg h9]

theorem rxCUser_fixes_at {q : Str} (h : AtShape q) : rxCUser q = q := by
  obtain ⟨seg, hne, hns, rfl⟩ := h
  have htw : ('@' :: seg).takeWhile (fun c => c ≠ '/') =
      '@' :: seg.takeWhile (fun c => c ≠ '/') := by
    simp [List.takeWhile]
  have hcond : ¬(lowerStr (('@' :: seg).takeWhile (fun c => c ≠ '/')) = ['c'] ∨
      lowerStr (('@' :: seg).takeWhile (fun c => c ≠ '/')) = ['u', 's', 'e', 'r']) := by
    rw [htw]
    intro habs
    rcases habs with he | he <;>
      · simp only [lowerStr, List.map_cons] at he
        rw [show lowerChar '@' = '@' from by decide] at he
        simp at he
  simp only [rxCUser]
  rw [if_pos trivial, if_neg hcond]

theorem rxAt_fixes_chan {q : Str} (h : ChanShape q) : rxAt q = q := by
  obtain ⟨u, c, idp, hu, hc, hne, hid, rfl⟩ := h
  simp [rxAt, CHAN9]

theorem rxChannel_fixes_chan {q : Str} (h : ChanShape q) : rxChannel q = q := by
  obtain ⟨u, c, idp, hu, hc, hne, hid, rfl⟩ := h
  have htake : (CHAN9 ++ u :: c :: idp).take 9 = CHAN9 := by
    rw [show (9 : Nat) = CHAN9.length from rfl, take_append_self]
  have hdrop : (CHAN9 ++ u :: c :: idp).drop 9 = u :: c :: idp := by
    rw [show (9 : Nat) = CHAN9.length from rfl, drop_append_self]
  have htw : idp.takeWhile isIdChar = idp := takeWhile_eq_of_all hid
  unfold rxChannel
  rw [htake, if_pos (show lowerStr CHAN9 = CHAN9 from by decide), hdrop]
  dsimp only
  rw [if_pos ⟨hu, hc⟩, htw]
  rw [if_pos ⟨hne, Or.inl (List.drop_length idp)⟩]

theorem rxCUser_fixes_chan {q : Str} (h : ChanShape q) : rxCUser q = q := by
  obtain ⟨u, c, idp, hu, hc, hne, hid, rfl⟩ := h
  have hexp : CHAN9 ++ u :: c :: idp =
      '/' :: ('c' :: 'h' :: 'a' :: 'n' :: 'n' :: 'e' :: 'l' :: '/' :: (u :: c :: idp)) := rfl
  rw [hexp]
  have htw : ('c' :: 'h' :: 'a' :: 'n' :: 'n' :: 'e' :: 'l' :: '/' ::
      (u :: c :: idp)).takeWhile (fun c => c ≠ '/') =
      ['c', 'h', 'a', 'n', 'n', 'e', 'l'] := by
    simp [List.takeWhile]
  simp only [rxCUser]
  rw [if_pos trivial, htw, if_neg (by decide)]

theorem rxAt_fixes_cu {q : Str} (h : CUShape q) : rxAt q = q := by
  obtain ⟨s1, s2, hform, hns1, hne2, hns2, rfl⟩ := h
  rcases hform with ⟨x, rfl, hlx⟩ | ⟨x1, x2, x3, x4, rfl, h1, h2, h3, h4⟩
  · have hx : ¬(x = '@') := by
      intro he; rw [he] at hlx; exact absurd hlx (by decide)
    simp [rxAt, hx]
  · have hx : ¬(x1 = '@') := by
      intro he; rw [he] at h1; exact absurd h1 (by decide)
    simp [rxAt, hx]

theorem rxChannel_fixes_cu {q : Str} (h : CUShape q) : rxChannel q = q := by
  obtain ⟨s1, s2, hform, hns1, hne2, hns2, rfl⟩ := h
  rcases hform with ⟨x, rfl, hlx⟩ | ⟨x1, x2, x3, x4, rfl, h1, h2, h3, h4⟩
  · have h9 : ¬(lowerStr (('/' :: ([x] ++ '/' :: s2)).take 9) = CHAN9) := by
      intro heq
      rw [show ('/' :: ([x] ++ '/' :: s2)).take 9 = '/' :: x :: '/' :: s2.take 6 from rfl] at heq
      simp only [lowerStr, List.map_cons] at heq
      rw [show lowerChar '/' = '/' from by decide] at heq
      simp [CHAN9] at heq
    unfold rxChannel
    rw [if_neg h9]
  · have h9 : ¬(lowerStr (('/' :: ([x1, x2, x3, x4] ++ '/' :: s2)).take 9) = CHAN9) := by
      intro heq
      rw [show ('/' :: ([x1, x2, x3, x4] ++ '/' :: s2)).take 9 =
        '/' :: x1 :: x2 :: x3 :: x4 :: '/' :: s2.take 3 from rfl] at heq
      simp only [lowerStr, List.map_cons] at heq
      rw [show lowerChar '/' = '/' from by decide, h1] at heq
      simp [CHAN9] at heq
    unfold rxChannel
    rw [if_neg h9]

theorem rxCUser_fixes_cu {q : Str} (h : CUShape q) : rxCUser q = q := by
  obtain ⟨s1, s2, hform, hns1, hne2, hns2, rfl⟩ := h
  have htw1 : (s1 ++ '/' :: s2).takeWhile (fun c => c ≠ '/') = s1 := by
    rw [takeWhile_append_all _ (fun c hc => by simp [hns1 c hc])]
    simp [List.takeWhile]
  have hcond : lowerStr ((s1 ++ '/' :: s2).takeWhile (fun c => c ≠ '/')) = ['c'] ∨
      lowerStr ((s1 ++ '/' :: s2).takeWhile (fun c => c ≠ '/')) = ['u', 's', 'e', 'r'] := by
    rw [htw1]
    rcases hform with ⟨x, rfl, hlx⟩ | ⟨x1, x2, x3, x4, rfl, h1, h2, h3, h4⟩
    · left; simp [lowerStr, hlx]
    · right; simp [lowerStr, h1, h2, h3, h4]
  have hdrop : (s1 ++ '/' :: s2).drop ((s1 ++ '/' :: s2).takeWhile
      (fun c => c ≠ '/')).length = '/' :: s2 := by
    rw [htw1, drop_append_self]
  have htw2 : s2.takeWhile (fun c => c ≠ '/') = s2 :=
    takeWhile_eq_of_all (fun c hc => by simp [hns2 c hc])
  simp only [rxCUser]
  rw [if_pos trivial, if_pos hcond, hdrop]
  dsimp only
  rw [if_pos rfl, htw1, htw2, if_neg hne2]

/-- The three-rewrite pipeline reaches a fixed point after one application. -/
theorem rxPipeline_idem (p : Str) : rxPipeline (rxPipeline p) = rxPipeline p := by
  unfold rxPipeline
  rcases rxAt_shape p with h1 | h1
  · rw [h1]
    rcases rxChannel_shape p with h2 | h2
    · rw [h2]
      rcases rxCUser_shape p with h3 | h3
      · rw [h3, h1, h2, h3]
      · rw [rxAt_fixes_cu h3, rxChannel_fixes_cu h3, rxCUser_fixes_cu h3]
    · rw [rxCUser_fixes_chan h2, rxAt_fixes_chan h2, rxChannel_fixes_chan h2,
        rxCUser_fixes_chan h2]
  · rw [rxChannel_fixes_at h1, rxCUser_fixes_at h1, rxAt_fixes_at h1,
      rxChannel_fixes_at h1, rxCUser_fixes_at h1]

/-! ## Invariants of the canonicalized output -/

theorem atShape_noTrail {q : Str} (h : AtShape q) : NoTrailSlash q := by
  obtain ⟨seg, hne, hns, rfl⟩ := h
  have : ('/' :: '@' :: seg) = ['/', '@'] ++ seg := rfl
  rw [NoTrailSlash, this, getLast?_append_right hne]
  obtain ⟨c, hc, hm⟩ := getLast?_some_mem hne
  rw [hc]
  intro habs
  exact hns c hm (by injection habs)

theorem chanShape_noTrail {q : Str} (h : ChanShape q) : NoTrailSlash q := by
  obtain ⟨u, c, idp, hu, hc, hne, hid, rfl⟩ := h
  have : CHAN9 ++ u :: c :: idp = (CHAN9 ++ [u, c]) ++ idp := by simp
  rw [NoTrailSlash, this, getLast?_append_right hne]
  obtain ⟨x, hx, hm⟩ := getLast?_some_mem hne
  rw [hx]
  intro habs
  have hxid := hid x hm
  have : x = '/' := by injection habs
  rw [this] at hxid
  exact absurd hxid (by decide)

theorem cuShape_noTrail {q : Str} (h : CUShape q) : NoTrailSlash q := by
  obtain ⟨s1, s2, hform, hns1, hne2, hns2, rfl⟩ := h
  have : '/' :: (s1 ++ '/' :: s2) = ('/' :: s1 ++ ['/']) ++ s2 := by simp
  rw [NoTrailSlash, this, getLast?_append_right hne2]
  obtain ⟨x, hx, hm⟩ := getLast?_some_mem hne2
  rw [hx]
  intro habs
  exact hns2 x hm (by injection habs)

theorem rxAt_noTrail {p : Str} (h : NoTrailSlash p) : NoTrailSlash (rxAt p) := by
  rcases rxAt_shape p with h1 | h1
  · rw [h1]; exact h
  · exact atShape_noTrail h1

theorem rxChannel_noTrail {p : Str} (h : NoTrailSlash p) : NoTrailSlash (rxChannel p) := by
  rcases rxChannel_shape p with h1 | h1
  · rw [h1]; exact h
  · exact chanShape_noTrail h1

theorem rxCUser_noTrail {p : Str} (h : NoTrailSlash p) : NoTrailSlash (rxCUser p) := by
  rcases rxCUser_shape p with h1 | h1
  · rw [h1]; exact h
  · exact cuShape_noTrail h1

theorem rxAt_headSlash {p : Str} (h : HeadSlashOrNil p) : HeadSlashOrNil (rxAt p) := by
  rcases rxAt_shape p with h1 | h1
  · rw [h1]; exact h
  · obtain ⟨seg, _, _, he⟩ := h1
    right; rw [he]; rfl

theorem rxChannel_headSlash {p : Str} (h : HeadSlashOrNil p) :
    HeadSlashOrNil (rxChannel p) := by
  rcases rxChannel_shape p with h1 | h1
  · rw [h1]; exact h
  · obtain ⟨u, c, idp, _, _, _, _, he⟩ := h1
    right; rw [he]; rfl

theorem rxCUser_headSlash {p : Str} (h : HeadSlashOrNil p) :
    HeadSlashOrNil (rxCUser p) := by
  rcases rxCUser_shape p with h1 | h1
  · rw [h1]; exact h
  · obtain ⟨s1, s2, _, _, _, _, he⟩ := h1
    right; rw [he]; rfl

theorem rxAt_nfkc {p : Str} (h : NfkcFixed p) : NfkcFixed (rxAt p) := by
  match p with
  | [] => exact h
  | [a] => exact h
  | a :: b :: rest =>
    by_cases hab : a = '/' ∧ b = '@'
    · by_cases hseg : rest.takeWhile (fun c => c ≠ '/') = []
      · simp only [rxAt, if_pos hab, if_pos hseg]; exact h
      · simp only [rxAt, if_pos hab, if_neg hseg]
        intro c hc
        rcases List.mem_cons.mp hc with rfl | hc
        · decide
        rcases List.mem_cons.mp hc with rfl | hc
        · decide
        exact h c (List.mem_cons_of_mem a (List.mem_cons_of_mem b (mem_of_mem_takeWhileL hc)))
    · simp only [rxAt, if_neg hab]; exact h

theorem rxChannel_nfkc {p : Str} (h : NfkcFixed p) : NfkcFixed (rxChannel p) := by
  unfold rxChannel
  by_cases h9 : lowerStr (p.take 9) = CHAN9
  · rw [if_pos h9]
    match hd : p.drop 9 with
    | [] => exact h
    | [u] => exact h
    | u :: c :: rest2 =>
      dsimp only
      by_cases huc : (u = 'U' ∨ u = 'u') ∧ (c = 'C' ∨ c = 'c')
      · rw [if_pos huc]
        by_cases hcond : rest2.takeWhile isIdChar ≠ [] ∧
            (rest2.drop (rest2.takeWhile isIdChar).length = [] ∨
              (rest2.drop (rest2.takeWhile isIdChar).length).head? = some '/')
        · rw [if_pos hcond]
          have hmem : ∀ x ∈ (u :: c :: rest2), x ∈ p := by
            intro x hx
            rw [← hd] at hx
            exact mem_of_mem_drop hx
          intro x hx
          rcases List.mem_append.mp hx with hx | hx
          · exact (show ∀ y ∈ CHAN9, nfkcChar y = y from by decide) x hx
          rcases List.mem_cons.mp hx with hxe | hx
          · rw [hxe]; exact h u (hmem u (List.mem_cons_self u _))
          rcases List.mem_cons.mp hx with hxe | hx
          · rw [hxe]; exact h c (hmem c (List.mem_cons_of_mem u (List.mem_cons_self c _)))
          · exact h x (hmem x (List.mem_cons_of_mem u
              (List.mem_cons_of_mem c (mem_of_mem_takeWhileL hx))))
        · rw [if_neg hcond]; exact h
      · rw [if_neg huc]; exact h
  · rw [if_neg h9]; exact h

theorem rxCUser_nfkc {p : Str} (h : NfkcFixed p) : NfkcFixed (rxCUser p) := by
  match p with
  | [] => exact h
  | a :: rest =>
    by_cases ha : a = '/'
    · by_cases hcu : lowerStr (rest.takeWhile (fun c => c ≠ '/')) = ['c'] ∨
          lowerStr (rest.takeWhile (fun c => c ≠ '/')) = ['u', 's', 'e', 'r']
      · simp only [rxCUser, if_pos ha, if_pos hcu]
        match hd : rest.drop (rest.takeWhile (fun c => c ≠ '/')).length with
        | [] => exact h
        | b :: rest2 =>
          dsimp only
          by_cases hb : b = '/'
          · rw [if_pos hb]
            by_cases hseg2 : rest2.takeWhile (fun c => c ≠ '/') = []
            · rw [if_pos hseg2]; exact h
            · rw [if_neg hseg2]
              have hrest : ∀ x ∈ rest, x ∈ (a :: rest) := fun x hx => List.mem_cons_of_mem a hx
              have hrest2 : ∀ x ∈ rest2, x ∈ (a :: rest) := by
                intro x hx
                apply hrest
                have : x ∈ b :: rest2 := List.mem_cons_of_mem b hx
                rw [← hd] at this
                exact mem_of_mem_drop this
              intro x hx
              rcases List.mem_cons.mp hx with rfl | hx
              · decide
              rcases List.mem_append.mp hx with hx | hx
              · exact h x (hrest x (mem_of_mem_takeWhileL hx))
              rcases List.mem_cons.mp hx with rfl | hx
              · decide
              · exact h x (hrest2 x (mem_of_mem_takeWhileL hx))
          · rw [if_neg hb]; exact h
      · simp only [rxCUser, if_pos ha, if_neg hcu]; exact h
    · simp only [rxCUser, if_neg ha]; exact h

theorem stripKnownSuffix_noTrail {p : Str} (h : NoTrailSlash p) :
    NoTrailSlash (stripKnownSuffix p) := by
  unfold stripKnownSuffix
  cases hf : findKnownSuffix p with
  | some suf => exact stripTrailSlash_noTrail _
  | none => exact h

theorem stripKnownSuffix_nfkc {p : Str} (h : NfkcFixed p) :
    NfkcFixed (stripKnownSuffix p) := by
  unfold stripKnownSuffix
  cases hf : findKnownSuffix p with
  | some suf =>
    intro c hc
    have h1 := (stripTrailSlash_isPrefixOf _).sublist.subset hc
    exact h c (take_prefix_mem h1)
  | none => exact h

theorem stripKnownSuffix_headSlash {p : Str} (h : HeadSlashOrNil p) :
    HeadSlashOrNil (stripKnownSuffix p) := by
  unfold stripKnownSuffix
  cases hf : findKnownSuffix p with
  | some suf =>
    exact headSlash_of_prefix (stripTrailSlash_isPrefixOf _) (headSlash_take p _ h)
  | none => exact h

theorem stripTrailSlash_headSlash {p : Str} (h : HeadSlashOrNil p) :
    HeadSlashOrNil (stripTrailSlash p) :=
  headSlash_of_prefix (stripTrailSlash_isPrefixOf p) h

theorem nfkcStr_headSlash {p : Str} (h : HeadSlashOrNil p) :
    HeadSlashOrNil (nfkcStr p) := by
  rcases h with h | h
  · left; rw [h]; rfl
  · cases p with
    | nil => left; rfl
    | cons a t =>
      right
      simp only [List.head?, Option.some.injEq] at h
      subst h
      simp only [nfkcStr, List.map_cons, List.head?, Option.some.injEq]
      decide

theorem pctDecode_headSlash {p : Str} (h : HeadSlashOrNil p) :
    HeadSlashOrNil (pctDecode p) := by
  rcases h with h | h
  · left; rw [h]; rfl
  · cases p with
    | nil => left; rfl
    | cons a t =>
      simp only [List.head?, Option.some.injEq] at h
      subst h
      right
      rfl

theorem stripParams_headSlash {p : Str} (h : HeadSlashOrNil p) :
    HeadSlashOrNil (stripParams p) := by
  unfold stripParams
  by_cases hs : ('/') ∈ p
  · rw [if_pos hs]
    have hbne : p.reverse.drop (p.reverse.takeWhile (fun c => c ≠ '/')).length ≠ [] := by
      intro habs
      have hlen : p.reverse.length ≤ (p.reverse.takeWhile (fun c => c ≠ '/')).length :=
        List.drop_eq_nil_iff.mp habs
      have hpre : (p.reverse.takeWhile (fun c => c ≠ '/')) <+: p.reverse :=
        List.takeWhile_prefix _
      have heq : p.reverse.takeWhile (fun c => c ≠ '/') = p.reverse :=
        List.IsPrefix.eq_of_length hpre (Nat.le_antisymm hpre.length_le hlen)
      have hsr : ('/') ∈ p.reverse := List.mem_reverse.mpr hs
      rw [← heq] at hsr
      exact absurd (List.mem_takeWhile_imp hsr) (by simp)
    have hpre2 : (p.reverse.drop (p.reverse.takeWhile
        (fun c => c ≠ '/')).length).reverse <+: p := by
      have hsuf := List.drop_suffix ((p.reverse.takeWhile (fun c => c ≠ '/')).length)
        (l := p.reverse)
      have := List.reverse_prefix.mpr hsuf
      rwa [List.reverse_reverse] at this
    have hrne : (p.reverse.drop (p.reverse.takeWhile
        (fun c => c ≠ '/')).length).reverse ≠ [] := by
      intro habs
      exact hbne (by simpa using habs)
    right
    rw [head?_append_left hrne, prefix_head? hpre2 hrne]
    rcases h with h | h
    · rw [h] at hs; simp at hs
    · exact h
  · rw [if_neg hs]
    exact headSlash_of_prefix (List.takeWhile_prefix _) h

/-! ## The assembled path pipeline -/

theorem canonPath_noTrail (p : Str) : NoTrailSlash (canonPath p) := by
  unfold canonPath rxPipeline
  exact rxCUser_noTrail (rxChannel_noTrail (rxAt_noTrail
    (stripKnownSuffix_noTrail (stripTrailSlash_noTrail _))))

theorem canonPath_nfkc (p : Str) : NfkcFixed (canonPath p) := by
  unfold canonPath rxPipeline
  exact rxCUser_nfkc (rxChannel_nfkc (rxAt_nfkc (stripKnownSuffix_nfkc (by
    intro c hc
    have h1 := (stripTrailSlash_isPrefixOf _).sublist.subset hc
    exact nfkcFixed_nfkcStr _ c h1))))

theorem canonPath_headSlash {p : Str} (h : HeadSlashOrNil p) :
    HeadSlashOrNil (canonPath p) := by
  unfold canonPath rxPipeline
  exact rxCUser_headSlash (rxChannel_headSlash (rxAt_headSlash
    (stripKnownSuffix_headSlash (stripTrailSlash_headSlash (nfkcStr_headSlash
      (pctDecode_headSlash (stripParams_headSlash h)))))))

theorem canonPath_rxfix (p : Str) : rxPipeline (canonPath p) = canonPath p := by
  unfold canonPath
  exact rxPipeline_idem _

theorem pathPart_headSlash (v : Str) : HeadSlashOrNil (pathPart v) := by
  unfold pathPart
  cases hd : ((v.drop (schemeLen v)).dropWhile notNetStop) with
  | nil => left; rfl
  | cons a t =>
    have ha : notNetStop a = false := by
      apply head?_dropWhile_false (l := v.drop (schemeLen v)) (p := notNetStop)
      rw [hd]; rfl
    have ha2 : a = '/' ∨ a = '?' ∨ a = '#' := by
      by_contra habs
      push_neg at habs
      have : notNetStop a = true := by
        simp [notNetStop, habs.1, habs.2.1, habs.2.2]
      rw [this] at ha; simp at ha
    rcases ha2 with rfl | rfl | rfl
    · right
      simp [List.takeWhile, notPathStop]
    · left; simp [List.takeWhile, notPathStop]
    · left; simp [List.takeWhile, notPathStop]

/-! ## Netloc facts and the canonical-output structure theorem -/

theorem lowerChar_notNetStop {c : Char} (h : notNetStop c = true) :
    notNetStop (lowerChar c) = true := by
  unfold lowerChar
  by_cases hc : 65 ≤ c.toNat ∧ c.toNat ≤ 90
  · rw [if_pos hc]
    have ht := charOfNat_toNat (c.toNat + 32) (Or.inl (by omega))
    simp only [notNetStop, decide_eq_true_eq]
    intro habs
    rcases habs with he | he | he <;>
    · have ht2 := congrArg Char.toNat he
      rw [ht] at ht2
      simp only [show ('/').toNat = 47 from rfl, show ('?').toNat = 63 from rfl,
        show ('#').toNat = 35 from rfl] at ht2
      omega
  · rw [if_neg hc]; exact h

theorem ytNetloc_chars {n : Str} (h : ∀ c ∈ n, notNetStop c = true) :
    ∀ c ∈ ytNetloc n, notNetStop c = true := by
  unfold ytNetloc
  split
  · intro c hc
    revert hc
    revert c
    decide
  · exact h

theorem ytNetloc_lower_fix (m : Str) :
    ytNetloc (lowerStr (ytNetloc (lowerStr m))) = ytNetloc (lowerStr m) := by
  unfold ytNetloc
  by_cases hx : lowerStr m = ("youtube.com").data ∨ lowerStr m = ("www.youtube.com").data ∨
      lowerStr m = ("m.youtube.com").data
  · rw [if_pos hx, if_pos (by decide)]
  · rw [if_neg hx, lowerStr_idem, if_neg hx]

theorem schemeLen_https (x : Str) : schemeLen (HTTPS ++ x) = 8 := by
  unfold schemeLen
  rw [show (8 : Nat) = HTTPS.length from rfl, take_append_self,
    if_pos (show lowerStr HTTPS = HTTPS from by decide)]

/-- Structure of every canonicalized URL: it is empty or splits into the
`https://` prefix, a netloc whose characters survive re-parsing and whose
normalization is stable, and a path that starts with a slash (or is empty),
carries no trailing slash, is NFKC-stable and is a fixed point of the三
identifier rewrites. -/
theorem canon_struct (u : Str) :
    canonicalize_youtube_channel_url u = [] ∨
    ∃ n p, canonicalize_youtube_channel_url u = HTTPS ++ n ++ p ∧
      (∀ c ∈ n, notNetStop c = true) ∧ ytNetloc (lowerStr n) = n ∧
      HeadSlashOrNil p ∧ NoTrailSlash p ∧ NfkcFixed p ∧ rxPipeline p = p := by
  unfold canonicalize_youtube_channel_url
  by_cases h0 : pyStrip u = []
  · rw [if_pos h0]; exact Or.inl rfl
  · rw [if_neg h0]
    right
    refine ⟨ytNetloc (lowerStr (netlocPart (normScheme (pyStrip u)))),
      canonPath (pathPart (normScheme (pyStrip u))), rfl, ?_, ?_, ?_, ?_, ?_, ?_⟩
    · apply ytNetloc_chars
      intro c hc
      obtain ⟨a, ha, rfl⟩ := List.mem_map.mp hc
      exact lowerChar_notNetStop (List.mem_takeWhile_imp ha)
    · exact ytNetloc_lower_fix _
    · exact canonPath_headSlash (pathPart_headSlash _)
    · exact canonPath_noTrail _
    · exact canonPath_nfkc _
    · exact canonPath_rxfix _

/-- C3 counterexample: canonicalizing `a.com/x/live/videos` once yields
`https://a.com/x/live` (only the first known suffix page is stripped); a
second application strips `/live` as well, so `canon(canon(u)) != canon(u)`:
the canonicalization is not a projection. -/
theorem C3_counterexample :
    canonicalize_youtube_channel_url
        (canonicalize_youtube_channel_url (("a.com/x/live/videos").data)) ≠
      canonicalize_youtube_channel_url (("a.com/x/live/videos").data) := by
  decide

/-- C3 (amended): channel-URL canonicalization is idempotent on every input
whose canonical form needs no further rewriting — i.e. whenever the
canonicalized URL has no surrounding whitespace, contains no `?`, `#`, `%`
or `;`, and its path does not end in another known suffix page
(`/videos`, `/live`, ...).  The counterexample shows the restriction cannot
be dropped: each application may strip one more suffix segment (and percent
escapes may decode further). -/
theorem C3_amended (u : Str)
    (hws : pyStrip (canonicalize_youtube_channel_url u) = canonicalize_youtube_channel_url u)
    (hq : ('?') ∉ canonicalize_youtube_channel_url u)
    (hh : ('#') ∉ canonicalize_youtube_channel_url u)
    (hpc : ('%') ∉ canonicalize_youtube_channel_url u)
    (hsm : (';') ∉ canonicalize_youtube_channel_url u)
    (hsuf : findKnownSuffix (pathPart (canonicalize_youtube_channel_url u)) = none) :
    canonicalize_youtube_channel_url (canonicalize_youtube_channel_url u) =
      canonicalize_youtube_channel_url u := by
  rcases canon_struct u with h0 | ⟨n, p, hv, hn, hyt, hhead, htrail, hnf, hrx⟩
  · rw [h0]; decide
  · rw [hv] at hws hq hh hpc hsm hsuf ⊢
    have hsch : schemeLen (HTTPS ++ n ++ p) = 8 := by
      rw [List.append_assoc]; exact schemeLen_https (n ++ p)
    have hdrop : (HTTPS ++ n ++ p).drop (schemeLen (HTTPS ++ n ++ p)) = n ++ p := by
      rw [hsch, List.append_assoc, show (8 : Nat) = HTTPS.length from rfl, drop_append_self]
    have hpq : ∀ c ∈ p, c ∈ HTTPS ++ n ++ p := by
      intro c hc
      rw [List.append_assoc]
      exact List.mem_append.mpr (Or.inr (List.mem_append.mpr (Or.inr hc)))
    have hnet : netlocPart (HTTPS ++ n ++ p) = n := by
      unfold netlocPart
      rw [hdrop, takeWhile_append_all _ hn]
      rcases hhead with h | h
      · rw [h]; simp
      · cases p with
        | nil => simp
        | cons a t =>
          simp only [List.head?, Option.some.injEq] at h
          subst h
          simp [List.takeWhile, notNetStop]
    have hpath : pathPart (HTTPS ++ n ++ p) = p := by
      unfold pathPart
      rw [hdrop, dropWhile_append_all _ hn]
      have hdw : p.dropWhile notNetStop = p := by
        apply dropWhile_eq_self_of_head
        intro c hc
        rcases hhead with h | h
        · rw [h] at hc; cases hc
        · rw [hc] at h
          have hce : c = '/' := by simpa using h
          rw [hce]; decide
      rw [hdw]
      apply takeWhile_eq_of_all
      intro c hc
      have hcv := hpq c hc
      simp only [notPathStop, decide_eq_true_eq]
      intro habs
      rcases habs with rfl | rfl
      · exact hq hcv
      · exact hh hcv
    rw [hpath] at hsuf
    have hvne : HTTPS ++ n ++ p ≠ [] := by simp [HTTPS]
    have hnorm : normScheme (HTTPS ++ n ++ p) = HTTPS ++ n ++ p := by
      unfold normScheme
      rw [if_neg ?notpre, if_pos ?schok]
      case notpre =>
        simp [HTTPS, List.isPrefixOf]
      case schok =>
        simp [schemeLen_https]
    have hcp : canonPath p = p := by
      unfold canonPath
      rw [stripParams_eq_self (fun hm => hsm (hpq _ hm)),
        pctDecode_eq_self (fun hm => hpc (hpq _ hm)),
        nfkcStr_eq_self hnf,
        stripTrailSlash_eq_self htrail,
        show stripKnownSuffix p = p from by unfold stripKnownSuffix; rw [hsuf],
        hrx]
    unfold canonicalize_youtube_channel_url
    rw [hws, if_neg hvne, hnorm, hnet, hpath, hyt, hcp]

/-- Witness for C3 (amended) at the concrete input `YouTube.com/@Foo/videos`,
whose canonical form `https://www.youtube.com/@Foo` satisfies all side
conditions. -/
theorem C3_amended_witness :
    canonicalize_youtube_channel_url
        (canonicalize_youtube_channel_url (("YouTube.com/@Foo/videos").data)) =
      canonicalize_youtube_channel_url (("YouTube.com/@Foo/videos").data) :=
  C3_amended (("YouTube.com/@Foo/videos").data) (by decide) (by decide) (by decide)
    (by decide) (by decide) (by decide)

/-! ## C8: resolver candidate scoring and selection -/

theorem score_foldl_count (t : Str) (l : List Str) (i : Int) :
    l.foldl (fun acc tok =>
        if pyStrip tok ≠ [] ∧ isSubstr (pyStrip tok) t = true then acc + 2 else acc) i =
      i + 2 * ((l.filter (fun tok =>
        pyStrip tok ≠ [] ∧ isSubstr (pyStrip tok) t = true)).length : Int) := by
  induction l generalizing i with
  | nil => simp
  | cons a rest ih =>
    by_cases ha : pyStrip a ≠ [] ∧ isSubstr (pyStrip a) t = true
    · simp only [List.foldl_cons, if_pos ha, List.filter_cons, ha]
      rw [ih]
      simp only [decide_eq_true_eq, List.length_cons]
      ring_nf
      simp [ha]
      ring
    · simp only [List.foldl_cons, if_neg ha, List.filter_cons]
      rw [ih]
      simp [ha]

theorem score_channel_hit_formula (q t : Str) :
    score_channel_hit q t = 2 * (tokenMatchCount q t : Int) +
      (if lowerStr q ≠ [] ∧ isSubstr (lowerStr q) (lowerStr t) = true then 5 else 0) := by
  simp only [score_channel_hit, tokenMatchCount]
  rw [score_foldl_count]
  by_cases hb : lowerStr q ≠ [] ∧ isSubstr (lowerStr q) (lowerStr t) = true
  · rw [if_pos hb, if_pos hb]; ring
  · rw [if_neg hb, if_neg hb]; ring

theorem score_channel_hit_nonneg (q t : Str) : 0 ≤ score_channel_hit q t := by
  rw [score_channel_hit_formula]
  split <;> positivity

theorem pick_fold_spec (q : Str) (cands : List (Str × Str)) (b : Str × Str) :
    ∃ b', cands.foldl (pickStep q) (some b, score_channel_hit q b.2) =
        (some b', score_channel_hit q b'.2) ∧
      score_channel_hit q b.2 ≤ score_channel_hit q b'.2 ∧
      (∀ c ∈ cands, score_channel_hit q c.2 ≤ score_channel_hit q b'.2) ∧
      (b' = b ∨ ∃ pre post, cands = pre ++ b' :: post ∧
        score_channel_hit q b.2 < score_channel_hit q b'.2 ∧
        (∀ c ∈ pre, score_channel_hit q c.2 < score_channel_hit q b'.2)) := by
  induction cands generalizing b with
  | nil => exact ⟨b, rfl, le_refl _, by simp, Or.inl rfl⟩
  | cons c rest ih =>
    by_cases hc : score_channel_hit q c.2 > score_channel_hit q b.2
    · have hstep : pickStep q (some b, score_channel_hit q b.2) c =
          (some c, score_channel_hit q c.2) := by
        unfold pickStep; rw [if_pos hc]
      obtain ⟨b', hfold, hge, hall, hcase⟩ := ih c
      refine ⟨b', ?_, ?_, ?_, ?_⟩
      · rw [List.foldl_cons, hstep]; exact hfold
      · exact le_trans (le_of_lt hc) hge
      · intro x hx
        rcases List.mem_cons.mp hx with hxe | hx
        · rw [hxe]; exact hge
        · exact hall x hx
      · right
        rcases hcase with rfl | ⟨pre, post, hsplit, hgt, hpre⟩
        · exact ⟨[], rest, rfl, hc, by simp⟩
        · refine ⟨c :: pre, post, by rw [hsplit, List.cons_append],
            lt_of_lt_of_le hc hge, ?_⟩
          intro x hx
          rcases List.mem_cons.mp hx with hxe | hx
          · rw [hxe]; exact hgt
          · exact hpre x hx
    · have hstep : pickStep q (some b, score_channel_hit q b.2) c =
          (some b, score_channel_hit q b.2) := by
        unfold pickStep; rw [if_neg hc]
      obtain ⟨b', hfold, hge, hall, hcase⟩ := ih b
      refine ⟨b', ?_, hge, ?_, ?_⟩
      · rw [List.foldl_cons, hstep]; exact hfold
      · intro x hx
        rcases List.mem_cons.mp hx with hxe | hx
        · rw [hxe]; exact le_trans (le_of_not_lt hc) hge
        · exact hall x hx
      · rcases hcase with rfl | ⟨pre, post, hsplit, hgt, hpre⟩
        · exact Or.inl rfl
        · exact Or.inr ⟨c :: pre, post, by rw [hsplit, List.cons_append], hgt, by
            intro x hx
            rcases List.mem_cons.mp hx with hxe | hx
            · rw [hxe]; exact lt_of_le_of_lt (le_of_not_lt hc) hgt
            · exact hpre x hx⟩

/-- C8: the resolver scores a candidate as 2 points per whitespace-delimited
query token occurring in the candidate title plus a 5-point bonus when the
whole query occurs in the title (all comparisons lowercased, as in the
source), and `_pick_best_channel` returns none exactly on an empty candidate
list and otherwise the first candidate of maximal score: every candidate
before it scores strictly less and every one after it scores no more. -/
theorem C8_resolver_pick (q : Str) (cands : List (Str × Str)) :
    (∀ t, score_channel_hit q t = 2 * (tokenMatchCount q t : Int) +
      (if lowerStr q ≠ [] ∧ isSubstr (lowerStr q) (lowerStr t) = true then 5 else 0)) ∧
    (pick_best_channel q cands = none ↔ cands = []) ∧
    (∀ b, pick_best_channel q cands = some b →
      ∃ pre post, cands = pre ++ b :: post ∧
        (∀ c ∈ pre, score_channel_hit q c.2 < score_channel_hit q b.2) ∧
        (∀ c ∈ cands, score_channel_hit q c.2 ≤ score_channel_hit q b.2)) := by
  have hfirst : ∀ (c : Str × Str) (rest : List (Str × Str)),
      pickStep q ((none : Option (Str × Str)), (-1 : Int)) c =
        (some c, score_channel_hit q c.2) := by
    intro c rest
    unfold pickStep
    rw [if_pos (lt_of_lt_of_le (by norm_num) (score_channel_hit_nonneg q c.2))]
  refine ⟨score_channel_hit_formula q, ?_, ?_⟩
  · constructor
    · intro hnone
      cases cands with
      | nil => rfl
      | cons c rest =>
        exfalso
        unfold pick_best_channel at hnone
        rw [List.foldl_cons, hfirst c rest] at hnone
        obtain ⟨b', hfold, _, _, _⟩ := pick_fold_spec q rest c
        rw [hfold] at hnone
        simp at hnone
    · intro he; rw [he]; rfl
  · intro b hb
    cases cands with
    | nil => simp [pick_best_channel] at hb
    | cons c rest =>
      unfold pick_best_channel at hb
      rw [List.foldl_cons, hfirst c rest] at hb
      obtain ⟨b', hfold, hge, hall, hcase⟩ := pick_fold_spec q rest c
      rw [hfold] at hb
      simp only [Option.some.injEq] at hb
      subst hb
      rcases hcase with rfl | ⟨pre, post, hsplit, hgt, hpre⟩
      · refine ⟨[], rest, rfl, by simp, ?_⟩
        intro x hx
        rcases List.mem_cons.mp hx with hxe | hx
        · rw [hxe]
        · exact hall x hx
      · refine ⟨c :: pre, post, by rw [hsplit, List.cons_append], ?_, ?_⟩
        · intro x hx
          rcases List.mem_cons.mp hx with hxe | hx
          · rw [hxe]; exact hgt
          · exact hpre x hx
        · intro x hx
          rcases List.mem_cons.mp hx with hxe | hx
          · rw [hxe]; exact le_of_lt hgt
          · exact hall x hx

/-- Witness for C8 at a concrete query and candidate list: among
`(UC1, other channel)` and `(UC2, wuwa live)`, the query `wuwa` selects the
second candidate, and the theorem yields its first-of-maximal-score
decomposition. -/
theorem C8_resolver_pick_witness :
    ∃ pre post,
      ([((("UC1").data : Str), (("other channel").data : Str)),
        ((("UC2").data : Str), (("wuwa live").data : Str))] : List (Str × Str)) =
        pre ++ (((("UC2").data : Str), (("wuwa live").data : Str))) :: post ∧
      (∀ c ∈ pre, score_channel_hit (("wuwa").data) c.2 <
        score_channel_hit (("wuwa").data) (("wuwa live").data)) ∧
      (∀ c ∈ [((("UC1").data : Str), (("other channel").data : Str)),
        ((("UC2").data : Str), (("wuwa live").data : Str))],
        score_channel_hit (("wuwa").data) c.2 ≤
          score_channel_hit (("wuwa").data) (("wuwa live").data)) :=
  (C8_resolver_pick (("wuwa").data) _).2.2 _ (by decide)

/-! ## C5: liveness determination precedence in `_yt_live_info` -/

/-- C5 counterexample: with `isLiveNow` explicitly present and `false` but an
`hlsManifestUrl` present, `_yt_live_info` reports the video as live — the
manifest signal is applied whenever the primary decision is negative, not
only when the explicit flag and the timestamps are absent, so the explicit
`isLiveNow` boolean is not preferred over the manifest signal as the claim
states. -/
theorem C5_counterexample :
    (playerLbd c5Player).map (fun l => l.isLiveNow) = some (some false) ∧
      (yt_live_info 0 c5Player).isLiveNow = true := by
  constructor <;> rfl

/-- C5 (amended): `_yt_live_info` decides liveness as follows.  When the
`isLiveNow` field is present, the timestamps are never consulted and
liveness is the field's value OR-ed with the streaming-manifest signal; when
the field is absent but broadcast details exist, liveness is the timestamp
inference (`start <= now` and end absent or `end > now`) OR-ed with the
manifest signal; when broadcast details are absent entirely, liveness is the
manifest signal alone.  In particular the manifest URL upgrades any negative
decision, rather than acting only in the absence of the other signals. -/
theorem C5_amended (now : Int) (player : Player) :
    (∀ l b, playerLbd player = some l → l.isLiveNow = some b →
      (yt_live_info now player).isLiveNow = (b || hlsSignal player)) ∧
    (∀ l, playerLbd player = some l → l.isLiveNow = none →
      (yt_live_info now player).isLiveNow = (lbdTsLive now l || hlsSignal player)) ∧
    (playerLbd player = none →
      (yt_live_info now player).isLiveNow = hlsSignal player) := by
  refine ⟨?_, ?_, ?_⟩
  · intro l b hl hb
    simp only [yt_live_info, hl, hb]
    cases b <;> simp
  · intro l hl hb
    simp only [yt_live_info, hl, hb]
    cases h : lbdTsLive now l <;> simp [h]
  · intro hl
    simp only [yt_live_info, hl]
    simp

/-- Witness for C5 (amended) at the counterexample player: the explicit
`isLiveNow = false` is OR-ed with the manifest signal. -/
theorem C5_amended_witness :
    (yt_live_info 0 c5Player).isLiveNow = (false || hlsSignal c5Player) :=
  (C5_amended 0 c5Player).1 _ false rfl rfl

/-! ## Association-map lemmas for the loop state -/

theorem lookupAssoc_updAssoc_self {β : Type} (m : List (Str × β)) (k : Str) (v : β) :
    lookupAssoc (updAssoc m k v) k = some v := by
  induction m with
  | nil => simp [updAssoc, lookupAssoc]
  | cons kv rest ih =>
    obtain ⟨k0, v0⟩ := kv
    by_cases hk : k0 = k <;> simp [updAssoc, lookupAssoc, hk, ih]

theorem lookupAssoc_updAssoc_pres {β : Type} (m : List (Str × β)) (k V : Str) (v : β)
    (h : lookupAssoc m V ≠ none) : lookupAssoc (updAssoc m k v) V ≠ none := by
  induction m with
  | nil => simp [lookupAssoc] at h
  | cons kv rest ih =>
    obtain ⟨k0, v0⟩ := kv
    by_cases hV : k0 = V
    · subst hV
      by_cases hk : k0 = k
      · subst hk
        simp [updAssoc, lookupAssoc]
      · simp [updAssoc, lookupAssoc, hk]
    · simp only [lookupAssoc, if_neg hV] at h
      by_cases hk : k0 = k
      · subst hk
        simp only [updAssoc, if_pos rfl, lookupAssoc, if_neg hV]
        exact h
      · simp only [updAssoc, if_neg hk, lookupAssoc, if_neg hV]
        exact ih h

theorem lookupAssoc_writeAliasKeys_pres (keys : List Str) (vid : Str)
    (m : List (Str × Str)) (V : Str) (h : lookupAssoc m V ≠ none) :
    lookupAssoc (writeAliasKeys keys vid m) V ≠ none := by
  induction keys generalizing m with
  | nil => exact h
  | cons k rest ih =>
    exact ih (updAssoc m k vid) (lookupAssoc_updAssoc_pres m k V vid h)

theorem loop_step_vids_pres (p : LoopParams) (s : LoopState) (r : DetResult) (V : Str)
    (h : lookupAssoc s.announcedVids V ≠ none) :
    lookupAssoc (loop_step p s r).state.announcedVids V ≠ none := by
  simp only [loop_step, recordAndFlush]
  repeat' split
  all_goals first
    | exact h
    | exact lookupAssoc_updAssoc_pres _ _ _ _ h

theorem loop_step_posted_fresh (p : LoopParams) (s : LoopState) (r : DetResult)
    (h : (loop_step p s r).postedVid ≠ none) :
    lookupAssoc s.announcedVids r.vid = none ∧
      (loop_step p s r).postedVid = some r.vid := by
  revert h
  simp only [loop_step, recordAndFlush]
  repeat' split
  all_goals intro h
  all_goals first
    | exact absurd rfl h
    | refine ⟨?_, rfl⟩
  all_goals by_contra habs
  all_goals tauto

/-- C1: at-most-once announce.  Once a video id is recorded in
`announced_vids` — in particular after a restart that reloads the persisted
state — processing any sequence of detection results never calls `_post`
for that id again: every such result is suppressed by the de-dup gate,
whichever target or alias produced it. -/
theorem C1_at_most_once (p : LoopParams) (s : LoopState) (rs : List DetResult) (V : Str)
    (h : lookupAssoc s.announcedVids V ≠ none) :
    V ∉ (loop_run p s rs).2 := by
  induction rs generalizing s with
  | nil => simp [loop_run]
  | cons r rest ih =>
    simp only [loop_run]
    intro hmem
    rcases List.mem_append.mp hmem with hm | hm
    · cases hpost : (loop_step p s r).postedVid with
      | none => rw [hpost] at hm; simp at hm
      | some v =>
        rw [hpost] at hm
        simp only [List.mem_singleton] at hm
        subst hm
        obtain ⟨hnone, hsome⟩ := loop_step_posted_fresh p s r (by rw [hpost]; simp)
        rw [hpost] at hsome
        have hv : V = r.vid := by injection hsome
        rw [hv] at h
        exact h hnone
    · exact ih _ (loop_step_vids_pres p s r V h) hm

/-- Witness for C1: with `v1` already in `announced_vids`, a later detection
result carrying `v1` leads to no `_post` call. -/
theorem C1_at_most_once_witness :
    (("v1").data : Str) ∉
      (loop_run wParams wStateSeen
        [wResult (("v1").data) (some 990) (("Alice").data)]).2 :=
  C1_at_most_once wParams wStateSeen _ _ (by decide)

/-! ## C6: state writes and flushes per decision branch -/

/-- C6 counterexample: on the video-id de-dup branch the loop neither stamps
`announced_vids[vid]` with the current time nor flushes the state file: with
`v1` recorded at time 5 and the clock at 1000, the entry stays 5 and no
write to durable storage happens — the claim's `including on the
de-dup-suppression branch` part fails. -/
theorem C6_counterexample :
    (loop_step wParams wStateSeen
        (wResult (("v1").data) (some 990) (("Alice").data))).branch =
      LoopBranch.dedupGate ∧
    (loop_step wParams wStateSeen
        (wResult (("v1").data) (some 990) (("Alice").data))).flushed = false ∧
    lookupAssoc (loop_step wParams wStateSeen
        (wResult (("v1").data) (some 990) (("Alice").data))).state.announcedVids
      (("v1").data) = some 5 ∧
    wParams.now = 1000 := by
  refine ⟨rfl, rfl, ?_, rfl⟩
  decide

/-- C6 (amended): on the announce, stale-live, old-after-boot and
cross-instance branches the loop writes every alias key, stamps
`announced_vids[vid] = now` and flushes the state file; on the video-id
de-dup branch it only realigns the alias keys in memory — `announced_vids`
is untouched and nothing is flushed; on the remaining exits (empty creator
name, in-flight skip, failed `_post`) the state is unchanged and nothing is
flushed. -/
theorem C6_amended (p : LoopParams) (s : LoopState) (r : DetResult) :
    ((loop_step p s r).branch = LoopBranch.dedupGate →
      (loop_step p s r).state.announced =
          writeAliasKeys (detKeys r.t) r.vid s.announced ∧
        (loop_step p s r).state.announcedVids = s.announcedVids ∧
        (loop_step p s r).flushed = false) ∧
    ((loop_step p s r).branch = LoopBranch.bootOld ∨
        (loop_step p s r).branch = LoopBranch.stale ∨
        (loop_step p s r).branch = LoopBranch.crossInstance ∨
        (loop_step p s r).branch = LoopBranch.posted →
      (loop_step p s r).state.announced =
          writeAliasKeys (detKeys r.t) r.vid s.announced ∧
        lookupAssoc (loop_step p s r).state.announcedVids r.vid = some p.now ∧
        (loop_step p s r).flushed = true) ∧
    ((loop_step p s r).branch = LoopBranch.noName ∨
        (loop_step p s r).branch = LoopBranch.inflightSkip ∨
        (loop_step p s r).branch = LoopBranch.postFailed →
      (loop_step p s r).state = s ∧ (loop_step p s r).flushed = false) := by
  simp only [loop_step, recordAndFlush]
  repeat' split
  all_goals refine ⟨fun h => ?_, fun h => ?_, fun h => ?_⟩
  all_goals first
    | exact ⟨rfl, rfl, rfl⟩
    | exact ⟨rfl, lookupAssoc_updAssoc_self _ _ _, rfl⟩
    | exact ⟨rfl, rfl⟩
    | (exfalso; revert h; simp)

/-- Witness for C6 (amended): the de-dup branch of the concrete
counterexample input realigns the alias keys, leaves `announced_vids`
unchanged and does not flush. -/
theorem C6_amended_witness :
    (loop_step wParams wStateSeen
        (wResult (("v1").data) (some 990) (("Alice").data))).state.announced =
      writeAliasKeys (detKeys (wResult (("v1").data) (some 990) (("Alice").data)).t)
        (("v1").data) wStateSeen.announced ∧
    (loop_step wParams wStateSeen
        (wResult (("v1").data) (some 990) (("Alice").data))).state.announcedVids =
      wStateSeen.announcedVids ∧
    (loop_step wParams wStateSeen
        (wResult (("v1").data) (some 990) (("Alice").data))).flushed = false :=
  (C6_amended wParams wStateSeen
    (wResult (("v1").data) (some 990) (("Alice").data))).1 (by decide)

/-! ## C7: stale-live suppression -/

/-- C7: with a positive `ANNOUNCE_MAX_AGE_MINUTES` and a detection whose
start time lies more than that many minutes in the past, the loop performs
no `_post` call for the video id but the id ends up recorded in
`announced_vids` (the freshness hypotheses say the id is not concurrently
in flight and not lingering as an alias value without a vids entry, i.e.
the scenario state of the claim). -/
theorem C7_stale_suppressed (p : LoopParams) (s : LoopState) (r : DetResult) (st : Int)
    (hmax : p.announceMaxAgeMinutes > 0)
    (hst : r.startTs = some st)
    (hage : p.now - st > p.announceMaxAgeMinutes * 60)
    (hinf : r.vid ∉ s.inflight)
    (hval : r.vid ∉ s.announced.map (fun kv => kv.2)) :
    (loop_step p s r).postedVid = none ∧
      lookupAssoc (loop_step p s r).state.announcedVids r.vid ≠ none := by
  simp only [loop_step, recordAndFlush]
  by_cases hseen : lookupAssoc s.announcedVids r.vid ≠ none
  · rw [if_pos (Or.inl hseen)]
    exact ⟨rfl, hseen⟩
  · rw [if_neg (by
      intro habs
      rcases habs with h1 | h1 | h1
      · exact hseen h1
      · exact hinf h1
      · exact hval h1)]
    have hst1 : (if p.onlyNewAfterBoot then some (r.startTs.getD p.now) else r.startTs) =
        some st := by
      rw [hst]; split <;> rfl
    by_cases hboot : p.onlyNewAfterBoot ∧
        (r.startTs.getD p.now) < p.bootTime - max 0 p.bootGraceSeconds
    · rw [if_pos hboot]
      refine ⟨rfl, ?_⟩
      rw [lookupAssoc_updAssoc_self]
      simp
    · rw [if_neg hboot, if_pos ⟨hmax, by rw [hst1]; simp, by rw [hst1]; simpa⟩]
      refine ⟨rfl, ?_⟩
      rw [lookupAssoc_updAssoc_self]
      simp

/-- Witness for C7: max age 10 minutes, a live that started at time 0 with
the clock at 1000 (more than 600 seconds later) is suppressed but recorded. -/
theorem C7_stale_suppressed_witness :
    (loop_step wParams wStateEmpty
        (wResult (("v2").data) (some 0) (("Alice").data))).postedVid = none ∧
      lookupAssoc (loop_step wParams wStateEmpty
          (wResult (("v2").data) (some 0) (("Alice").data))).state.announcedVids
        (("v2").data) ≠ none :=
  C7_stale_suppressed wParams wStateEmpty _ 0 (by decide) rfl (by decide)
    (by decide) (by decide)

/-! ## C9 and C10: the delivery pipeline -/

/-- C9 counterexample: a worker pass whose send fails with the Cloudflare
1015 signature engages the cooldown and drains the queue, but the drained
request's future is NOT resolved: `m2` disappears from the queue while its
future stays pending (its awaiting caller hangs forever), contradicting
`the worker resolves them with no message sent`. -/
theorem C9_counterexample :
    is_cloudflare_1015 wCfErr = true ∧
    (send_worker_step 900 100 (SendOutcome.err wCfErr) wSend0).queue = [] ∧
    lookupAssoc (send_worker_step 900 100 (SendOutcome.err wCfErr) wSend0).futs
      (("m2").data) = some FutStatus.pending ∧
    100 < (send_worker_step 900 100 (SendOutcome.err wCfErr) wSend0).cfCooldownUntil := by
  decide

/-- C9 (amended): inside the cooldown window every new `_send_queued` call
returns `None` without enqueuing and the worker resolves the queue head's
future with `None` without sending; engaging the cooldown empties the
queue while leaving every future untouched (drained requests are dropped
unresolved, not resolved), and pushes the deadline at least 60 seconds
past now. -/
theorem C9_amended (cd now : Int) (o : SendOutcome) (s : SendState) (mid : Str)
    (rest : List Str)
    (hwin : s.cfCooldownUntil ≠ 0 ∧ now < s.cfCooldownUntil)
    (hq : s.queue = mid :: rest) :
    (engage_cloudflare_cooldown cd now s).queue = [] ∧
      (engage_cloudflare_cooldown cd now s).futs = s.futs ∧
      now + 60 ≤ (engage_cloudflare_cooldown cd now s).cfCooldownUntil ∧
      send_queued now mid s = (s, false) ∧
      lookupAssoc (send_worker_step cd now o s).futs mid = some FutStatus.doneNone ∧
      (send_worker_step cd now o s).sentLog = s.sentLog := by
  have h1 : (60 : Int) ≤ max 60 cd := le_max_left _ _
  have h2 : now + max 60 cd ≤ max s.cfCooldownUntil (now + max 60 cd) := le_max_right _ _
  refine ⟨rfl, rfl, ?_, ?_, ?_, ?_⟩
  · simp only [engage_cloudflare_cooldown]
    linarith
  · simp only [send_queued, if_pos hwin]
  · simp only [send_worker_step, hq]
    rw [if_pos hwin]
    exact lookupAssoc_updAssoc_self _ _ _
  · simp only [send_worker_step, hq]
    rw [if_pos hwin]

/-- Witness for C9 (amended) at a concrete in-window state. -/
theorem C9_amended_witness :
    (engage_cloudflare_cooldown 900 100 wSendWin).queue = [] ∧
      (engage_cloudflare_cooldown 900 100 wSendWin).futs = wSendWin.futs ∧
      (100 : Int) + 60 ≤ (engage_cloudflare_cooldown 900 100 wSendWin).cfCooldownUntil ∧
      send_queued 100 (("m").data) wSendWin = (wSendWin, false) ∧
      lookupAssoc (send_worker_step 900 100 SendOutcome.ok wSendWin).futs (("m").data) =
        some FutStatus.doneNone ∧
      (send_worker_step 900 100 SendOutcome.ok wSendWin).sentLog = wSendWin.sentLog :=
  C9_amended 900 100 SendOutcome.ok wSendWin (("m").data) [] (by decide) rfl

theorem send_step_not_sent (cd : Int) (s : SendState) (e : SendEvent) (mid : Str)
    (hq : mid ∉ s.queue) (hl : mid ∉ s.sentLog)
    (he : eventEnqueues e mid = false) :
    mid ∉ (send_event_apply cd s e).queue ∧ mid ∉ (send_event_apply cd s e).sentLog := by
  cases e with
  | enqueue now i =>
    have hne : ¬(i = mid) := by simpa [eventEnqueues] using he
    simp only [send_event_apply, send_queued]
    split
    · exact ⟨hq, hl⟩
    split
    · exact ⟨hq, hl⟩
    · refine ⟨?_, hl⟩
      simp only [List.mem_append, List.mem_singleton, not_or]
      exact ⟨hq, fun habs => hne habs.symm⟩
  | work now o =>
    cases hqe : s.queue with
    | nil =>
      simp only [send_event_apply, send_worker_step, hqe]
      exact ⟨List.not_mem_nil mid, hl⟩
    | cons i rest =>
      rw [hqe] at hq
      simp only [List.mem_cons, not_or] at hq
      obtain ⟨hne, hrest⟩ := hq
      simp only [send_event_apply, send_worker_step, hqe]
      split
      · exact ⟨hrest, hl⟩
      · cases o with
        | ok =>
          refine ⟨hrest, ?_⟩
          simp only [List.mem_append, List.mem_singleton, not_or]
          exact ⟨hl, hne⟩
        | err m =>
          dsimp only
          split
          · exact ⟨List.not_mem_nil mid, hl⟩
          · exact ⟨hrest, hl⟩
  | engage now =>
    refine ⟨?_, ?_⟩
    · simp [send_event_apply, engage_cloudflare_cooldown]
    · simpa [send_event_apply, engage_cloudflare_cooldown] using hl

theorem send_run_not_sent (cd : Int) (evs : List SendEvent) (mid : Str) :
    ∀ s : SendState, mid ∉ s.queue → mid ∉ s.sentLog →
      evs.all (fun e => !eventEnqueues e mid) = true →
      mid ∉ (send_run cd s evs).sentLog := by
  induction evs with
  | nil =>
    intro s _ hl _
    simpa [send_run] using hl
  | cons e es ih =>
    intro s hq hl hevs
    simp only [List.all_cons, Bool.and_eq_true] at hevs
    have he : eventEnqueues e mid = false := by
      have h0 := hevs.1
      simpa using h0
    have hstep := send_step_not_sent cd s e mid hq hl he
    simp only [send_run]
    exact ih _ hstep.1 hstep.2 hevs.2

/-- C10: when the send queue is at capacity, `_send_queued` drops the
request and returns `None` (modelled as the unchanged state paired with
`false` — no exception propagates and nothing blocks), and as long as the
same message id is never re-enqueued, no later pipeline activity delivers
it: the id never enters the log of messages handed to `channel.send`. -/
theorem C10_queue_full_drop (cd now : Int) (s : SendState) (mid : Str)
    (evs : List SendEvent)
    (hfull : s.queue.length ≥ s.queueMax)
    (hwin : ¬(s.cfCooldownUntil ≠ 0 ∧ now < s.cfCooldownUntil))
    (hq : mid ∉ s.queue) (hl : mid ∉ s.sentLog)
    (hevs : evs.all (fun e => !eventEnqueues e mid) = true) :
    send_queued now mid s = (s, false) ∧
      mid ∉ (send_run cd (send_queued now mid s).1 evs).sentLog := by
  have hdrop : send_queued now mid s = (s, false) := by
    simp only [send_queued, if_neg hwin, if_pos hfull]
  refine ⟨hdrop, ?_⟩
  rw [hdrop]
  exact send_run_not_sent cd evs mid s hq hl hevs

/-- Witness for C10: capacity-1 queue already holding `a`; message `b` is
dropped and stays undelivered across a later worker pass. -/
theorem C10_queue_full_drop_witness :
    send_queued 0 (("b").data) wSendFull = (wSendFull, false) ∧
      (("b").data : Str) ∉
        (send_run 900 (send_queued 0 (("b").data) wSendFull).1
          [SendEvent.work 5 SendOutcome.ok]).sentLog :=
  C10_queue_full_drop 900 0 wSendFull (("b").data) [SendEvent.work 5 SendOutcome.ok]
    (by decide) (by decide) (by decide) (by decide) (by decide)

/-! ## C4: the detector's anonymous-name handling -/

theorem badName_nil : badName ([] : Str) = false := rfl

theorem badName_sanitizeName (c2 cand : Str) : badName (sanitizeName c2 cand) = false := by
  by_cases hb : badName c2 = true <;>
    by_cases he : c2 = [] <;>
      by_cases hc : cand ≠ [] ∧ badName cand = false <;>
        simp [sanitizeName, hb, he, hc, badName_nil]

theorem badName_finalCreatorName (env : CheckLiveEnv) (t : Target) :
    badName (finalCreatorName env t) = false := by
  simp only [finalCreatorName]
  exact badName_sanitizeName _ _

theorem loop_step_postedVid_none_of_noName (p : LoopParams) (s : LoopState)
    (r : DetResult) (h : r.creatorName = []) :
    (loop_step p s r).postedVid = none := by
  simp only [loop_step, recordAndFlush]
  repeat' split
  all_goals rfl

/-- C4 counterexample: a target known only by its @handle, a live page with
a matching title but no resolvable channel display name anywhere — the
claim says `_check_live` returns none, but it returns the detection tuple
with an EMPTY creator name (the discard of anonymous items happens later,
in the announce loop at lines 2999-3002, not in `_check_live`). -/
theorem C4_counterexample :
    check_live_finalize wEnvC4 wTargetAt (("vid123").data) (("WuWa Live").data)
        (some 10) =
      some (wTargetAt, (("vid123").data : Str), (("WuWa Live").data : Str),
        some (10 : Int), ([] : Str)) := by
  rfl

/-- C4 (amended): whatever the caches and page content, a detection tuple
returned by the final gate of `_check_live` never carries an @handle-shaped
or UC-id-shaped creator name — though it may carry an empty one — and a
detection with an empty creator name is never posted by the announce loop:
`_post` is unreachable for it. -/
theorem C4_amended (env : CheckLiveEnv) (t : Target) (vid title : Str)
    (ts : Option Int) (p : LoopParams) (s : LoopState)
    (res : Target × Str × Str × Option Int × Str)
    (h : check_live_finalize env t vid title ts = some res) :
    badName res.2.2.2.2 = false ∧
      (res.2.2.2.2 = [] → (loop_step p s (detOfResult res)).postedVid = none) := by
  have hres : res.2.2.2.2 = finalCreatorName env t := by
    unfold check_live_finalize at h
    split at h
    · injection h with h1
      rw [← h1]
    · exact absurd h (by simp)
  constructor
  · rw [hres]
    exact badName_finalCreatorName env t
  · intro hempty
    exact loop_step_postedVid_none_of_noName p s _ (by simpa [detOfResult] using hempty)

/-- Witness for C4 (amended) at the concrete unresolvable-name input. -/
theorem C4_amended_witness :
    badName ((wTargetAt, (("vidw").data : Str), (("WuWa Live").data : Str),
        some (10 : Int), ([] : Str)) :
          Target × Str × Str × Option Int × Str).2.2.2.2 = false ∧
      (((wTargetAt, (("vidw").data : Str), (("WuWa Live").data : Str), some (10 : Int),
            ([] : Str)) : Target × Str × Str × Option Int × Str).2.2.2.2 = [] →
        (loop_step wParams wStateEmpty
          (detOfResult (wTargetAt, (("vidw").data : Str), (("WuWa Live").data : Str),
            some (10 : Int), ([] : Str)))).postedVid = none) :=
  C4_amended wEnvC4 wTargetAt (("vidw").data) (("WuWa Live").data) (some 10) wParams
    wStateEmpty
    (wTargetAt, (("vidw").data : Str), (("WuWa Live").data : Str), some (10 : Int),
      ([] : Str)) rfl

/-! ## C2: merge idempotence -/

/-- C2 counterexample: for the three-target list `cexL`, re-merging the
list into itself fills the `query` field of the handle target from the
re-processed first element (whose weak name alias was rebound during the
first pass), so `merge(L,L).merged` and `merge([],L).merged` differ under
the order-independent semantic representation. -/
theorem C2_counterexample :
    targets_semantic_repr ((merge_targets cexRes cexL cexL).1) ≠
      targets_semantic_repr ((merge_targets cexRes [] cexL).1) := by
  decide

theorem lookupAssoc_bindFold_pres {β : Type} (ks : List Str) (i : β)
    (m : List (Str × β)) (V : Str) (h : lookupAssoc m V ≠ none) :
    lookupAssoc (ks.foldl (fun m k => updAssoc m k i) m) V ≠ none := by
  induction ks generalizing m with
  | nil => exact h
  | cons k rest ih =>
    exact ih (updAssoc m k i) (lookupAssoc_updAssoc_pres m k V i h)

theorem lookupAssoc_bindFold_mem {β : Type} (ks : List Str) (i : β) (k : Str) :
    ∀ m : List (Str × β), k ∈ ks →
      lookupAssoc (ks.foldl (fun m k => updAssoc m k i) m) k ≠ none := by
  induction ks with
  | nil => intro m hk; cases hk
  | cons k0 rest ih =>
    intro m hk
    simp only [List.foldl_cons]
    rcases List.mem_cons.mp hk with h | h
    · subst h
      exact lookupAssoc_bindFold_pres rest i (updAssoc m k i) k
        (by rw [lookupAssoc_updAssoc_self]; simp)
    · exact ih (updAssoc m k0 i) h

theorem firstHit_ne_none_of_exists (idx : List (Str × Nat)) (ks : List Str) :
    ∀ k ∈ ks, lookupAssoc idx k ≠ none → firstHit idx ks ≠ none := by
  induction ks with
  | nil => intro k hk; cases hk
  | cons k0 rest ih =>
    intro k hk h
    cases hl : lookupAssoc idx k0 with
    | some i => simp [firstHit, hl]
    | none =>
      simp only [firstHit, hl]
      rcases List.mem_cons.mp hk with he | he
      · rw [he] at h; exact absurd hl h
      · exact ih k he h

theorem firstHit_exists_of_ne_none (idx : List (Str × Nat)) (ks : List Str) :
    firstHit idx ks ≠ none → ∃ k ∈ ks, lookupAssoc idx k ≠ none := by
  induction ks with
  | nil => intro h; simp [firstHit] at h
  | cons k0 rest ih =>
    intro h
    cases hl : lookupAssoc idx k0 with
    | some i => exact ⟨k0, List.mem_cons_self k0 rest, by rw [hl]; simp⟩
    | none =>
      simp only [firstHit, hl] at h
      obtain ⟨k, hk, hne⟩ := ih h
      exact ⟨k, List.mem_cons_of_mem k0 hk, hne⟩

theorem target_dedupe_key_ne_nil (d : TargetD) : target_dedupe_key d ≠ [] := by
  simp only [target_dedupe_key]
  repeat' split
  all_goals intro h
  all_goals first
    | exact (by decide : (("cid:").data : Str) ≠ []) (List.append_eq_nil.mp h).1
    | exact (by decide : (("h:").data : Str) ≠ []) (List.append_eq_nil.mp h).1
    | exact (by decide : (("u:").data : Str) ≠ []) (List.append_eq_nil.mp h).1
    | exact (by decide : (("n:").data : Str) ≠ []) (List.append_eq_nil.mp h).1

theorem aliases_head_mem (d : TargetD) : target_dedupe_key d ∈ aliases d := by
  simp only [aliases, uniqKeys, uniqKeysGo]
  rw [if_pos ⟨target_dedupe_key_ne_nil d, List.not_mem_nil _⟩]
  exact List.mem_cons_self _ _

theorem merge_into_index_pres (res : Str → Option ResolvedEntry) (st : MergeState)
    (i : Nat) (inc : TargetD) (V : Str) (h : lookupAssoc st.index V ≠ none) :
    lookupAssoc (merge_into res st i inc).index V ≠ none := by
  unfold merge_into
  cases hg : st.merged.get? i with
  | none => simp only [hg]; exact h
  | some base =>
    simp only [hg, bind_keys]
    exact lookupAssoc_bindFold_pres _ _ _ _ h

theorem merge_into_len_added (res : Str → Option ResolvedEntry) (st : MergeState)
    (i : Nat) (inc : TargetD) :
    (merge_into res st i inc).merged.length = st.merged.length ∧
      (merge_into res st i inc).added = st.added := by
  unfold merge_into
  cases hg : st.merged.get? i with
  | none => simp [hg]
  | some base => simp [hg, bind_keys, List.length_set]

theorem add_one_prepped_index_pres (res : Str → Option ResolvedEntry)
    (st : MergeState) (d1 : TargetD) (b : Bool) (V : Str)
    (h : lookupAssoc st.index V ≠ none) :
    lookupAssoc (add_one_prepped res st d1 b).index V ≠ none := by
  unfold add_one_prepped
  cases hf : firstHit st.index (aliases d1) with
  | some i =>
    simp only [hf]
    exact merge_into_index_pres res st i _ V h
  | none =>
    simp only [hf, bind_keys]
    split
    · exact lookupAssoc_bindFold_pres _ _ _ _ h
    · exact lookupAssoc_bindFold_pres _ _ _ _ h

theorem add_one_index_pres (res : Str → Option ResolvedEntry) (st : MergeState)
    (d : TargetD) (b : Bool) (V : Str) (h : lookupAssoc st.index V ≠ none) :
    lookupAssoc (add_one res st d b).index V ≠ none :=
  add_one_prepped_index_pres res st (prep res d) b V h

theorem Phit_mono (res : Str → Option ResolvedEntry) (st : MergeState) (d e : TargetD)
    (b : Bool) (h : Phit res st d) : Phit res (add_one res st e b) d := by
  obtain ⟨k, hk, hne⟩ := firstHit_exists_of_ne_none _ _ h
  exact firstHit_ne_none_of_exists _ _ k hk (add_one_index_pres res st e b k hne)

theorem Phit_prepped_self (res : Str → Option ResolvedEntry) (st : MergeState)
    (d1 : TargetD) (b : Bool) :
    firstHit (add_one_prepped res st d1 b).index (aliases d1) ≠ none := by
  unfold add_one_prepped
  have hk : target_dedupe_key d1 ∈ aliases d1 := aliases_head_mem _
  cases hf : firstHit st.index (aliases d1) with
  | some i =>
    simp only [hf]
    obtain ⟨k, hk2, hne⟩ := firstHit_exists_of_ne_none st.index (aliases d1)
      (by rw [hf]; simp)
    exact firstHit_ne_none_of_exists _ _ k hk2 (merge_into_index_pres res st i _ k hne)
  | none =>
    simp only [hf, bind_keys]
    have hb : lookupAssoc ((aliases d1).foldl
        (fun m k => updAssoc m k st.merged.length) st.index)
        (target_dedupe_key d1) ≠ none :=
      lookupAssoc_bindFold_mem _ _ _ st.index hk
    split
    · exact firstHit_ne_none_of_exists _ _ _ hk hb
    · exact firstHit_ne_none_of_exists _ _ _ hk hb

theorem Phit_self (res : Str → Option ResolvedEntry) (st : MergeState) (d : TargetD)
    (b : Bool) : Phit res (add_one res st d b) d :=
  Phit_prepped_self res st (prep res d) b

theorem add_one_prepped_hit_len_added (res : Str → Option ResolvedEntry)
    (st : MergeState) (d1 : TargetD) (b : Bool)
    (h : firstHit st.index (aliases d1) ≠ none) :
    (add_one_prepped res st d1 b).merged.length = st.merged.length ∧
      (add_one_prepped res st d1 b).added = st.added := by
  unfold add_one_prepped
  cases hf : firstHit st.index (aliases d1) with
  | none => exact absurd hf h
  | some i =>
    simp only [hf]
    exact merge_into_len_added res st i _

theorem add_one_hit_len_added (res : Str → Option ResolvedEntry) (st : MergeState)
    (d : TargetD) (b : Bool) (h : Phit res st d) :
    (add_one res st d b).merged.length = st.merged.length ∧
      (add_one res st d b).added = st.added :=
  add_one_prepped_hit_len_added res st (prep res d) b h

theorem mergePass_Phit_pres (res : Str → Option ResolvedEntry) (b : Bool)
    (L : List TargetD) :
    ∀ st d0, Phit res st d0 → Phit res (mergePass res b st L) d0 := by
  induction L with
  | nil => intro st d0 h; exact h
  | cons e es ih =>
    intro st d0 h
    simp only [mergePass, mergePassGo]
    exact ih _ _ (Phit_mono res st d0 e b h)

theorem mergePass_Phit_all (res : Str → Option ResolvedEntry) (b : Bool)
    (L : List TargetD) :
    ∀ st, ∀ d ∈ L, Phit res (mergePass res b st L) d := by
  induction L with
  | nil => intro st d hd; cases hd
  | cons e es ih =>
    intro st d hd
    simp only [mergePass, mergePassGo]
    rcases List.mem_cons.mp hd with he | he
    · subst he
      exact mergePass_Phit_pres res b es _ _ (Phit_self res st d b)
    · exact ih _ d he

theorem mergePass_hit_len_added (res : Str → Option ResolvedEntry) (b : Bool)
    (L : List TargetD) :
    ∀ st, (∀ d ∈ L, Phit res st d) →
      (mergePass res b st L).merged.length = st.merged.length ∧
        (mergePass res b st L).added = st.added := by
  induction L with
  | nil => intro st _; exact ⟨rfl, rfl⟩
  | cons e es ih =>
    intro st hP
    have h1 := add_one_hit_len_added res st e b (hP e (List.mem_cons_self e es))
    have hP2 : ∀ d ∈ es, Phit res (add_one res st e b) d :=
      fun d hd => Phit_mono res st d e b (hP d (List.mem_cons_of_mem e hd))
    obtain ⟨hl, ha⟩ := ih _ hP2
    simp only [mergePass, mergePassGo]
    exact ⟨hl.trans h1.1, ha.trans h1.2⟩

theorem add_one_merged_index_flag (res : Str → Option ResolvedEntry) (d : TargetD)
    (b b2 : Bool) :
    ∀ st st2 : MergeState, st.merged = st2.merged → st.index = st2.index →
      (add_one res st d b).merged = (add_one res st2 d b2).merged ∧
        (add_one res st d b).index = (add_one res st2 d b2).index := by
  intro st st2 hm hi
  unfold add_one add_one_prepped merge_into bind_keys
  generalize prep res d = d1
  rw [hm, hi]
  cases hf : firstHit st2.index (aliases d1) with
  | some i =>
    simp only [hf]
    cases hg : st2.merged.get? i with
    | none => exact ⟨hm, hi⟩
    | some base => exact ⟨rfl, rfl⟩
  | none =>
    simp only [hf]
    cases b <;> cases b2 <;> exact ⟨rfl, rfl⟩

theorem mergePass_merged_index_flag (res : Str → Option ResolvedEntry)
    (L : List TargetD) (b b2 : Bool) :
    ∀ st st2 : MergeState, st.merged = st2.merged → st.index = st2.index →
      (mergePass res b st L).merged = (mergePass res b2 st2 L).merged ∧
        (mergePass res b st L).index = (mergePass res b2 st2 L).index := by
  induction L with
  | nil => intro st st2 hm hi; exact ⟨hm, hi⟩
  | cons e es ih =>
    intro st st2 hm hi
    obtain ⟨hm2, hi2⟩ := add_one_merged_index_flag res e b b2 st st2 hm hi
    simp only [mergePass, mergePassGo]
    exact ih _ _ hm2 hi2

theorem add_one_false_added (res : Str → Option ResolvedEntry) (st : MergeState)
    (d : TargetD) : (add_one res st d false).added = st.added := by
  unfold add_one add_one_prepped
  generalize prep res d = d1
  cases hf : firstHit st.index (aliases d1) with
  | some i =>
    simp only [hf]
    exact (merge_into_len_added res st i _).2
  | none =>
    simp only [hf, bind_keys]
    rfl

theorem mergePass_false_added (res : Str → Option ResolvedEntry) (L : List TargetD) :
    ∀ st, (mergePass res false st L).added = st.added := by
  induction L with
  | nil => intro st; rfl
  | cons e es ih =>
    intro st
    simp only [mergePass, mergePassGo]
    rw [show (mergePassGo (fun st d => add_one res st d false) (add_one res st e false) es) =
      mergePass res false (add_one res st e false) es from rfl, ih]
    exact add_one_false_added res st e

/-- C2 (amended): re-merging a watchlist into itself never ADDS a target:
`merge(L, L)` reports zero added items, and its merged list has exactly as
many entries as `merge([], L)`'s.  (The entries' fields can still differ,
as the counterexample shows, so full semantic idempotence fails.) -/
theorem C2_amended (res : Str → Option ResolvedEntry) (L : List TargetD) :
    (merge_targets res L L).2.1 = 0 ∧
      ((merge_targets res L L).1).length = ((merge_targets res [] L).1).length := by
  have hP : ∀ d ∈ L, Phit res (mergePass res false
      { merged := [], index := [], added := 0, addedItems := [] } L) d :=
    mergePass_Phit_all res false L _
  have h2 := mergePass_hit_len_added res true L _ hP
  have hflag := mergePass_merged_index_flag res L false true
    { merged := [], index := [], added := 0, addedItems := [] }
    { merged := [], index := [], added := 0, addedItems := [] } rfl rfl
  constructor
  · show (mergePass res true (mergePass res false
        { merged := [], index := [], added := 0, addedItems := [] } L) L).added = 0
    rw [h2.2, mergePass_false_added res L]
  · show ((mergePass res true (mergePass res false
        { merged := [], index := [], added := 0, addedItems := [] } L) L).merged).length =
      ((mergePass res true
        { merged := [], index := [], added := 0, addedItems := [] } L).merged).length
    rw [h2.1, hflag.1]

end YTWatch
